import Mathlib

/-!
Shallow embedding of `IntegrateFtrackInstance`
(src/client/ayon_ftrack/plugins/publish/integrate_ftrack_instances.py).

The Python plugin turns a publish instance into an ordered list of ftrack
component records.  The embedding below translates the data model and the
whole `process` method (plus the helper methods it calls) into executable
Lean definitions.  Modelling decisions, all noted at the definition they
concern:
  * Python dict records become structures; the per-representation results of
    the external collaborator `get_publish_repre_path` become the fields
    `path` (third argument `False`) and `publishedPath` (third argument
    `True`) of `Repre`, which is sound because the collaborator is a pure
    function of the instance and representation within one assembly call;
  * the external probe `get_ffprobe_streams` and the parser
    `convert_ffprobe_fps_to_float` become functions stored in `Env`
    (`none` plays the role of a raised exception / `ValueError`);
  * floats are modelled as rationals; JSON payloads (`json.dumps` of the
    `ftr_meta` dict) are kept structured in the `FtrMeta` type;
  * Python in-place mutation of the thumbnail binding records, whose
    source component is aliased by an already-appended list entry, is made
    explicit: the assembled list is first produced as `Entry` values where
    `Entry.thumbSrcRef i` is the aliased entry pointing at binding `i`,
    and is resolved against the final binding state (exactly what the
    aliasing in the Python code observes).
-/

namespace AyonFtrack

/-- Float subtraction, written through `mkRat` so that closed terms reduce
(`Rat.sub` is irreducible); equal to rational subtraction by `pySub_eq`. -/
def pySub (a b : ℚ) : ℚ := mkRat (a.num * b.den - b.num * a.den) (a.den * b.den)

/-- Float addition through `mkRat`; equal to rational addition. -/
def pyAdd (a b : ℚ) : ℚ := mkRat (a.num * b.den + b.num * a.den) (a.den * b.den)

/-- Float multiplication through `mkRat`; equal to rational multiplication. -/
def pyMul (a b : ℚ) : ℚ := mkRat (a.num * b.num) (a.den * b.den)

theorem pySub_eq (a b : ℚ) : pySub a b = a - b := by
  rw [Rat.sub_def, Rat.normalize_eq_mkRat]; rfl

theorem pyAdd_eq (a b : ℚ) : pyAdd a b = a + b := by
  rw [Rat.add_def, Rat.normalize_eq_mkRat]; rfl

theorem pyMul_eq (a b : ℚ) : pyMul a b = a * b := by
  rw [Rat.mul_def, Rat.normalize_eq_mkRat]; rfl

/-- Python truthiness of an optional string (`None` and `""` are falsy). -/
def optStrTruthy : Option String → Bool
  | some s => !(s == "")
  | none => false

/-- Python truthiness of an optional natural number (`None` and `0` are falsy). -/
def optNatTruthy : Option Nat → Bool
  | some n => !(n == 0)
  | none => false

/-- Python truthiness of an optional rational (`None` and `0.0` are falsy). -/
def optRatTruthy : Option ℚ → Bool
  | some q => !(q == 0)
  | none => false

/-- One ffprobe stream as consumed by the plugin: the keys it reads via
`.get(...)`/`[...]`.  `width`/`height` are `none` when the key is absent;
`duration` holds the already-parsed float value of the `duration` string. -/
structure FFStream where
  codec_type : String
  codec_long_name : Option String := none
  codec : Option String := none
  pix_fmt : Option String := none
  width : Option Nat := none
  height : Option Nat := none
  r_frame_rate : Option String := none
  duration : Option ℚ := none
  deriving Repr, DecidableEq

/-- A representation dict, restricted to the keys the plugin reads.
`path` is the memoised result of `get_publish_repre_path(instance, repre,
False)` and `publishedPath` the result with `only_published=True`
(validated paths; `none` models the `None` return). -/
structure Repre where
  name : String
  ext : String
  tags : List String := []
  thumbnail : Bool := false
  outputName : Option String := none
  width : Option Nat := none
  height : Option Nat := none
  fps : Option ℚ := none
  frameStartFtrack : Option ℚ := none
  frameEndFtrack : Option ℚ := none
  path : Option String := none
  publishedPath : Option String := none
  deriving Repr, DecidableEq

/-- The slice of `instance.data["versionEntity"]` the plugin reads. -/
structure VersionEntity where
  id : String
  version : Int
  deriving Repr, DecidableEq

/-- The slice of the pyblish instance (and its context) the plugin reads. -/
structure PublishInstance where
  representations : Option (List Repre) := none
  version : Option Int := none
  productType : String := ""
  ftrackFamily : Option String := none
  productName : String := ""
  folderPath : String := ""
  comment : Option String := none
  fps : Option ℚ := none
  contextFps : ℚ := 25
  frameStart : ℚ := 0
  frameEnd : ℚ := 0
  versionEntity : Option VersionEntity := none
  deriving Repr, DecidableEq

/-- One entry of `asset_versions_status_profiles`. -/
structure StatusProfile where
  status : String
  deriving Repr, DecidableEq

/-- The class-level settings of the plugin that the studio overrides. -/
structure PluginSettings where
  keep_first_product_name_for_review : Bool := true
  upload_reviewable_with_origin_name : Bool := false
  asset_versions_status_profiles : List StatusProfile := []
  additional_metadata_keys : List String := []
  deriving Repr, DecidableEq

/-- External collaborators and externally configured constants: the video and
image extension tables of `ayon_core.lib.transcoding`, the ffprobe call
(`none` models a raised exception), the fps-expression parser (`none` models
`ValueError`), version strings, the two custom-attribute key constants from
`ayon_ftrack.common.constants`, and `filter_profiles` (abstracted over its
fixed per-instance criteria). -/
structure Env where
  videoExtensions : List String
  imageExtensions : List String
  ffprobeStreams : String → Option (List FFStream)
  parseFps : String → Option ℚ
  ftrackVersion : String
  launcherVersion : String
  custAttrKeyServerId : String
  custAttrKeyServerPath : String
  filterStatusProfiles : List StatusProfile → Option StatusProfile

/-- Structured review payload: `{"frameIn": 0, "frameOut": .., "frameRate": ..}`. -/
structure ReviewMeta where
  frameIn : ℚ
  frameOut : ℚ
  frameRate : ℚ
  deriving Repr, DecidableEq

/-- Structured non-review video payload: optional `frameRate`, optional
`width`/`height` pair. -/
structure NonReviewMeta where
  frameRate : Option ℚ
  width : Option Nat
  height : Option Nat
  deriving Repr, DecidableEq

/-- Structured image payload: `{"width": .., "height": .., "format": "image"}`. -/
structure ImageMeta where
  width : Nat
  height : Nat
  deriving Repr, DecidableEq

/-- The JSON value serialized under the `ftr_meta` metadata key. -/
inductive FtrMeta
  | review (m : ReviewMeta)
  | nonReview (m : NonReviewMeta)
  | image (m : ImageMeta)
  deriving Repr, DecidableEq

/-- A metadata map value: label strings, numbers, or the `ftr_meta` payload. -/
inductive MetaValue
  | str (s : String)
  | num (q : ℚ)
  | payload (m : FtrMeta)
  deriving Repr, DecidableEq

/-- Python truthiness of a metadata value. -/
def metaValueTruthy : MetaValue → Bool
  | .str s => !(s == "")
  | .num q => !(q == 0)
  | .payload _ => true

/-- Python dict assignment `md[k] = v`: replace in place if the key exists,
append otherwise (insertion order preserved, as for `dict`). -/
def mdSet : List (String × MetaValue) → String → MetaValue → List (String × MetaValue)
  | [], k, v => [(k, v)]
  | (k0, v0) :: rest, k, v =>
    if k0 == k then (k, v) :: rest else (k0, v0) :: mdSet rest k v

/-- Python dict lookup `md.get(k)`. -/
def mdLookup : List (String × MetaValue) → String → Option MetaValue
  | [], _ => none
  | (k0, v0) :: rest, k => if k0 == k then some v0 else mdLookup rest k

/-- Split a character list at every `/` (keeping empty segments), the
helper behind `os.path.basename`. -/
def splitOnSlash : List Char → List (List Char)
  | [] => [[]]
  | c :: rest =>
    let r := splitOnSlash rest
    if c == '/' then [] :: r
    else
      match r with
      | h :: t => (c :: h) :: t
      | [] => [[c]]

/-- `os.path.basename` for POSIX paths. -/
def pathBasename (s : String) : String :=
  String.mk ((splitOnSlash s.toList).getLastD [])

/-- `os.path.splitext` applied to a basename: split off the last extension
unless every character before the last dot is itself a dot. -/
def splitextOf (b : String) : String × String :=
  let cs := b.toList
  let dotIdxs := (List.range cs.length).filter (fun i => cs.getD i ' ' == '.')
  match dotIdxs.getLast? with
  | none => (b, "")
  | some i =>
    if (List.range i).all (fun j => cs.getD j ' ' == '.') then (b, "")
    else (String.mk (cs.take i), String.mk (cs.drop i))

/-- `os.path.splitext(p)[-1]`: the extension (with dot) of a path. -/
def pathSplitextExt (p : String) : String :=
  (splitextOf (pathBasename p)).2

/-- Python `enumerate` starting at a given index. -/
def withIdx {α : Type} : Nat → List α → List (Nat × α)
  | _, [] => []
  | n, x :: xs => (n, x) :: withIdx (n + 1) xs

/-- In-place update of the element at one list index (no-op out of range),
the effect of mutating a dict obtained from a Python list. -/
def modifyAt {α : Type} : List α → Nat → (α → α) → List α
  | [], _, _ => []
  | x :: xs, 0, f => f x :: xs
  | x :: xs, n + 1, f => x :: modifyAt xs n f

/-- The `component_data` sub-dict of a component item. -/
structure ComponentData where
  name : String
  metadata : List (String × MetaValue)
  deriving Repr, DecidableEq

/-- One ftrack component record (`base_component_item` and its copies).
Nested sub-dict keys are flattened: `assettype_data.short`,
`asset_data.name`, and the `assetversion_data` fields. -/
structure ComponentItem where
  assettype_short : String
  asset_name : String
  version : Int
  comment : String
  status_name : Option String
  custom_attributes : List (String × String)
  component_overwrite : Bool
  thumbnail : Bool
  component_data : Option ComponentData
  component_path : Option String
  component_location : Option String
  component_location_name : Option String
  additional_data : List (String × String)
  deriving Repr, DecidableEq

/-- Placeholder record used only to make lookups total; never reachable for
entries actually produced by the pipeline. -/
def dummyComponent : ComponentItem :=
  { assettype_short := "", asset_name := "", version := 0, comment := "",
    status_name := none, custom_attributes := [], component_overwrite := false,
    thumbnail := false, component_data := none, component_path := none,
    component_location := none, component_location_name := none,
    additional_data := [] }

/-- The component name of an item (empty when `component_data` is unset). -/
def compName (c : ComponentItem) : String :=
  match c.component_data with
  | some cd => cd.name
  | none => ""

/-- The metadata map of an item (empty when `component_data` is unset). -/
def compMetadata (c : ComponentItem) : List (String × MetaValue) :=
  match c.component_data with
  | some cd => cd.metadata
  | none => []

/-- One `thumbnail_data_items` record (`{sync_key, representation, item,
src_component}`); `src_component` is absent for delete-tagged thumbnails. -/
structure ThumbBinding where
  sync_key : Option String
  representation : Repre
  item : ComponentItem
  src_component : Option ComponentItem
  deriving Repr, DecidableEq

/-- An entry of the working component list.  `val` is an entry holding its
own (deep-copied) record; `thumbSrcRef i` is the entry appended inside the
thumbnail loop, which in Python aliases the `src_component` dict of
thumbnail binding `i` and therefore shows every later in-place mutation of
that binding. -/
inductive Entry
  | val (c : ComponentItem)
  | thumbSrcRef (i : Nat)
  deriving Repr, DecidableEq

/-- Read an entry through the current binding states. -/
def resolveEntry (bindings : List ThumbBinding) : Entry → ComponentItem
  | .val c => c
  | .thumbSrcRef i =>
    match bindings[i]? with
    | some b =>
      match b.src_component with
      | some s => s
      | none => dummyComponent
    | none => dummyComponent

/-- `ftrack.unmanaged` location name. -/
def unmanaged_location_name : String := "ftrack.unmanaged"

/-- `ftrack.server` location name. -/
def ftrack_server_location_name : String := "ftrack.server"

/-- The class attribute `metadata_keys_to_label`. -/
def metadata_keys_to_label : String → String
  | "ayon_ftrack_version" => "AYON ftrack version"
  | "ayon_launcher_version" => "AYON launcher version"
  | "frame_start" => "Frame start"
  | "frame_end" => "Frame end"
  | "duration" => "Duration"
  | "width" => "Resolution width"
  | "height" => "Resolution height"
  | "fps" => "FPS"
  | "codec" => "Codec"
  | _ => ""

/-- The class attribute `product_type_mapping` (name, asset_type pairs). -/
def product_type_mapping : List (String × String) :=
  [("camera", "cam"), ("look", "look"), ("mayaAscii", "scene"),
   ("model", "geo"), ("rig", "rig"), ("setdress", "setdress"),
   ("pointcache", "cache"), ("render", "render"), ("prerender", "render"),
   ("render2d", "render"), ("nukescript", "comp"), ("write", "render"),
   ("review", "mov"), ("plate", "img"), ("audio", "audio"),
   ("workfile", "scene"), ("animation", "cache"), ("image", "img"),
   ("reference", "reference")]

/-- `_is_repre_video`: membership of `"." + ext` in the video extension set. -/
def is_repre_video (env : Env) (repre : Repre) : Bool :=
  env.videoExtensions.contains ("." ++ repre.ext)

/-- `_is_repre_image`: membership of `"." + ext` in the image extension set. -/
def is_repre_image (env : Env) (repre : Repre) : Bool :=
  env.imageExtensions.contains ("." ++ repre.ext)

/-- ASCII lower-casing of one character (`str.lower` restricted to the
ASCII range of the mapping names involved here). -/
def charLowerAscii (c : Char) : Char :=
  if c.toNat ≥ 65 && c.toNat ≤ 90 then Char.ofNat (c.toNat + 32) else c

/-- ASCII `str.lower`. -/
def strLowerAscii (s : String) : String :=
  String.mk (s.toList.map charLowerAscii)

/-- Case-insensitive `product_type_mapping` lookup (first match wins). -/
def lookupAssetType (productType : String) : Option String :=
  ((product_type_mapping.filter
      (fun p => strLowerAscii p.1 == strLowerAscii productType)).head?).map
    Prod.snd

/-- The asset type resolution of `process` lines 93-101: `ftrackFamily` if
truthy, else the mapping entry, else `"upload"` (also when falsy). -/
def resolveAssetType (inst : PublishInstance) : String :=
  let a0 :=
    if optStrTruthy inst.ftrackFamily then inst.ftrackFamily
    else lookupAssetType inst.productType
  match a0 with
  | some s => if s == "" then "upload" else s
  | none => "upload"

/-- `_get_asset_version_status_name`: `None` for an empty profile list,
otherwise the external `filter_profiles` result; a falsy `status` of the
matching profile also yields `None` (`matching_profile["status"] or None`). -/
def get_asset_version_status_name (cfg : PluginSettings) (env : Env) :
    Option String :=
  if cfg.asset_versions_status_profiles.isEmpty then none
  else
    match env.filterStatusProfiles cfg.asset_versions_status_profiles with
    | none => none
    | some p => if p.status == "" then none else some p.status

/-- The `"v{:0>3}".format(version)` tag of the version path. -/
def padVersion (v : Int) : String :=
  let s := toString v
  "v" ++ (if s.length < 3 then
    String.mk (List.replicate (3 - s.length) '0') ++ s else s)

/-- The `base_component_item` dict of `process` lines 124-146. -/
def mkBaseComponentItem (cfg : PluginSettings) (env : Env)
    (inst : PublishInstance) (version_number : Int) : ComponentItem :=
  { assettype_short := resolveAssetType inst,
    asset_name := inst.productName,
    version := version_number,
    comment := (inst.comment.getD ""),
    status_name := get_asset_version_status_name cfg env,
    custom_attributes :=
      match inst.versionEntity with
      | none => []
      | some ve =>
        [(env.custAttrKeyServerId, ve.id),
         (env.custAttrKeyServerPath,
          inst.folderPath ++ "/" ++ inst.productName ++ "/"
            ++ padVersion ve.version)],
    component_overwrite := false,
    thumbnail := false,
    component_data := none,
    component_path := none,
    component_location := none,
    component_location_name := none,
    additional_data := [] }

/-- The classifier buckets built in `process` lines 148-174. -/
structure Classified where
  thumbnails : List Repre
  reviews : List Repre
  others : List Repre
  hasMovieReview : Bool
  deriving Repr, DecidableEq

/-- One iteration of the classification loop (`process` lines 153-174):
skip `publish_on_farm`, route thumbnail flag/tag first, then
`ftrackreview`-tagged representations with a resolvable path, everything
else to the `other` bucket; records whether any review is a video. -/
def classifyStep (env : Env) (acc : Classified) (repre : Repre) : Classified :=
  if repre.tags.contains "publish_on_farm" then acc
  else if repre.thumbnail || repre.tags.contains "thumbnail" then
    { acc with thumbnails := acc.thumbnails ++ [repre] }
  else if repre.tags.contains "ftrackreview" && optStrTruthy repre.path then
    { acc with
      reviews := acc.reviews ++ [repre]
      hasMovieReview := acc.hasMovieReview || is_repre_video env repre }
  else { acc with others := acc.others ++ [repre] }

/-- Representation classification (`process` lines 148-174). -/
def classify (env : Env) (reps : List Repre) : Classified :=
  reps.foldl (classifyStep env) ⟨[], [], [], false⟩

/-- The review list after the video-priority filter of `process` lines
264-269: when a movie review exists, image reviews are dropped. -/
def filteredReviews (env : Env) (reps : List Repre) : List Repre :=
  let cls := classify env reps
  cls.reviews.filter (fun r => !cls.hasMovieReview || is_repre_video env r)

/-- The `synced_multiple_output_names` accumulation of `process` lines
176-192, including the original operator precedence: a thumbnail output
name is collected when it is truthy and equal to the (truthy) review output
name, or when it occurs among the review tags. -/
def synced_output_names (reviews thumbnails : List Repre) : List String :=
  reviews.foldl
    (fun acc rev =>
      match rev.outputName with
      | none => acc
      | some ro =>
        if ro == "" then acc
        else
          thumbnails.foldl
            (fun acc2 th =>
              match th.outputName with
              | none => acc2
              | some t =>
                if (!(t == "") && t == ro) || rev.tags.contains t then
                  acc2 ++ [t]
                else acc2)
            acc)
    []

/-- The effective width/height pair of `_prepare_image_component_metadata`
lines 721-736: declared values when both are truthy, otherwise the first
probed stream exposing both keys (the probe failure path leaves the
stream list empty). -/
def imageWH (env : Env) (repre : Repre) (component_path : String) :
    Option Nat × Option Nat :=
  if !(optNatTruthy repre.width) || !(optNatTruthy repre.height) then
    match ((env.ffprobeStreams component_path).getD []).filter
        (fun s => s.width.isSome && s.height.isSome) with
    | [] => (repre.width, repre.height)
    | s :: _ => (s.width, s.height)
  else (repre.width, repre.height)

/-- Lines 738-748: emit the image payload only when both final values are
truthy. -/
def imageMetaOf (wh : Option Nat × Option Nat) : List (String × MetaValue) :=
  if optNatTruthy wh.1 && optNatTruthy wh.2 then
    [("ftr_meta", .payload (.image ⟨wh.1.getD 0, wh.2.getD 0⟩))]
  else []

/-- `_prepare_image_component_metadata`. -/
def prepare_image_component_metadata (env : Env) (repre : Repre)
    (component_path : String) : List (String × MetaValue) :=
  imageMetaOf (imageWH env repre component_path)

/-- The loop-local state of the video stream scan in
`_prepare_video_component_metadata` lines 616-657. -/
structure VideoScan where
  width : Option Nat
  height : Option Nat
  fps : Option ℚ
  frame_out : Option ℚ
  codec : Option String
  deriving Repr, DecidableEq

/-- The stream loop of `_prepare_video_component_metadata` lines 621-657:
per stream the codec label is recomputed (falling from `codec_long_name` to
`codec`, suffixing a truthy `pix_fmt`), width/height are taken when both
are truthy, and the first stream with both `r_frame_rate` and `duration`
whose rate parses sets fps, overwrites width/height with its raw values,
computes `frame_out = duration * fps` and breaks. -/
def scanVideoStreams (env : Env) : List FFStream → VideoScan → VideoScan
  | [], st => st
  | s :: rest, st =>
    let codec0 :=
      if optStrTruthy s.codec_long_name then s.codec_long_name else s.codec
    let codecL :=
      match codec0 with
      | none => none
      | some c =>
        if c == "" then some c
        else
          match s.pix_fmt with
          | none => some c
          | some pf =>
            if pf == "" then some c else some (c ++ " (" ++ pf ++ ")")
    let wh :=
      if optNatTruthy s.width && optNatTruthy s.height then (s.width, s.height)
      else (st.width, st.height)
    let st1 : VideoScan :=
      { width := wh.1, height := wh.2, fps := st.fps,
        frame_out := st.frame_out, codec := codecL }
    match s.r_frame_rate, s.duration with
    | some rfr, some dur =>
      (match env.parseFps rfr with
       | none => scanVideoStreams env rest st1
       | some fps =>
         { width := s.width, height := s.height, fps := some fps,
           frame_out := some (pyMul dur fps), codec := codecL })
    | _, _ => scanVideoStreams env rest st1

/-- Effective fps (`fps = stream_fps or repre_fps or instance_fps`, where
`instance_fps` already fell back to the context fps on `None`). -/
def effectiveFps (scan : VideoScan) (repre : Repre) (inst : PublishInstance) :
    ℚ :=
  let instance_fps := inst.fps.getD inst.contextFps
  if optRatTruthy scan.fps then scan.fps.getD 0
  else if optRatTruthy repre.fps then repre.fps.getD 0
  else instance_fps

/-- Effective frame range: the representation `frameStartFtrack` /
`frameEndFtrack` pair when both are present (`is None` checks), else the
instance frame range. -/
def effectiveFrameRange (repre : Repre) (inst : PublishInstance) : ℚ × ℚ :=
  match repre.frameStartFtrack, repre.frameEndFtrack with
  | some fs, some fe => (fs, fe)
  | _, _ => (inst.frameStart, inst.frameEnd)

/-- The (key, value) rows of the labelled-metadata loop in
`_prepare_video_component_metadata` lines 678-687 (the `fps` row appears
twice, as in the source). -/
def scalarPairs (fps fs fe dur : ℚ) (w h : Option Nat) (codec : Option String) :
    List (String × Option MetaValue) :=
  [("fps", some (.num fps)),
   ("frame_start", some (.num fs)),
   ("frame_end", some (.num fe)),
   ("duration", some (.num dur)),
   ("width", w.map (fun n => .num n)),
   ("height", h.map (fun n => .num n)),
   ("fps", some (.num fps)),
   ("codec", codec.map .str)]

/-- One iteration of the emission loop of lines 678-691: skip falsy values
and keys outside `additional_metadata_keys`, otherwise store under the
human label. -/
def scalarStep (keys : List String) (acc : List (String × MetaValue)) :
    String × Option MetaValue → List (String × MetaValue)
  | (_, none) => acc
  | (k, some v) =>
    if !(metaValueTruthy v) || !(keys.contains k) then acc
    else mdSet acc (metadata_keys_to_label k) v

/-- The emission loop of lines 678-691. -/
def addScalarEntries (keys : List String)
    (pairs : List (String × Option MetaValue))
    (md : List (String × MetaValue)) : List (String × MetaValue) :=
  pairs.foldl (scalarStep keys) md

/-- Lines 586-593: the AYON version rows, emitted only when allow-listed. -/
def versionMetadataEntries (cfg : PluginSettings) (env : Env) :
    List (String × MetaValue) :=
  let md : List (String × MetaValue) := []
  let md :=
    if cfg.additional_metadata_keys.contains "ayon_ftrack_version" then
      mdSet md "AYON ftrack version" (.str env.ftrackVersion)
    else md
  if cfg.additional_metadata_keys.contains "ayon_launcher_version" then
    mdSet md "AYON launcher version" (.str env.launcherVersion)
  else md

/-- The main body of `_prepare_video_component_metadata` (lines 616-718,
reached when a video stream exists or the extension is `.exr`): scan the
streams, compute effective fps and frame range, emit the allow-listed
truthy scalars and the `ftr_meta` payload — a non-review payload (fps if
truthy, width/height if both truthy) or the review payload `frameIn=0`,
`frameOut` (stream `frame_out`, falling back to the frame-range duration
when falsy) and `frameRate`. -/
def videoMetadataMain (cfg : PluginSettings) (env : Env)
    (inst : PublishInstance) (repre : Repre) (is_review : Bool)
    (metadata0 : List (String × MetaValue)) (video_streams : List FFStream) :
    List (String × MetaValue) :=
  let scan := scanVideoStreams env video_streams
    ⟨none, none, none, none, none⟩
  let fps := effectiveFps scan repre inst
  let fr := effectiveFrameRange repre inst
  let dur := pyAdd (pySub fr.2 fr.1) 1
  let metadata := addScalarEntries cfg.additional_metadata_keys
    (scalarPairs fps fr.1 fr.2 dur scan.width scan.height scan.codec)
    metadata0
  if !is_review then
    let frameRate : Option ℚ := if !(fps == 0) then some fps else none
    let wh :=
      if optNatTruthy scan.width && optNatTruthy scan.height then
        (scan.width, scan.height)
      else (none, none)
    mdSet metadata "ftr_meta" (.payload (.nonReview ⟨frameRate, wh.1, wh.2⟩))
  else
    let frame_out :=
      match scan.frame_out with
      | some q => if q == 0 then dur else q
      | none => dur
    mdSet metadata "ftr_meta" (.payload (.review ⟨0, frame_out, fps⟩))

/-- `_prepare_video_component_metadata`.  A failed probe leaves the stream
list empty; when no video stream is found and the path extension is not
`.exr` the function returns early with only the version rows; otherwise
`videoMetadataMain` runs. -/
def prepare_video_component_metadata (cfg : PluginSettings) (env : Env)
    (inst : PublishInstance) (repre : Repre) (component_path : String)
    (is_review : Bool) : List (String × MetaValue) :=
  let metadata := versionMetadataEntries cfg env
  let extension := pathSplitextExt component_path
  let streams := (env.ffprobeStreams component_path).getD []
  let video_streams := streams.filter (fun s => s.codec_type == "video")
  if video_streams.isEmpty && !(extension == ".exr") then metadata
  else videoMetadataMain cfg env inst repre is_review metadata video_streams

/-- `_prepare_component_metadata`: dispatch on the representation extension. -/
def prepare_component_metadata (cfg : PluginSettings) (env : Env)
    (inst : PublishInstance) (repre : Repre) (component_path : String)
    (is_review : Bool) : List (String × MetaValue) :=
  if is_repre_video env repre then
    prepare_video_component_metadata cfg env inst repre component_path
      is_review
  else if is_repre_image env repre then
    prepare_image_component_metadata env repre component_path
  else []

/-- `_create_src_component`: disable the thumbnail flag, point at the given
location, suffix the component name with `_src` and replace the metadata by
the non-review metadata of the representation.  (In the source the input
always carries `component_data` and a path; the defaults here only keep the
function total.) -/
def create_src_component (cfg : PluginSettings) (env : Env)
    (inst : PublishInstance) (repre : Repre) (component_item : ComponentItem)
    (location : String) : ComponentItem :=
  let cd := component_item.component_data.getD ⟨"", []⟩
  { component_item with
    thumbnail := false
    component_location_name := some location
    component_data := some
      { name := cd.name ++ "_src",
        metadata := prepare_component_metadata cfg env inst repre
          (component_item.component_path.getD "") false } }

/-- `_make_extended_component_name`: suppressed (None) when the
keep-first-name flag is set and the iteration index is `0`, otherwise
`asset_name + "_" + repre name`. -/
def make_extended_component_name (cfg : PluginSettings)
    (component_item : ComponentItem) (repre : Repre)
    (iteration_index : Nat) : Option String :=
  if cfg.keep_first_product_name_for_review && iteration_index == 0 then none
  else some (component_item.asset_name ++ "_" ++ repre.name)

/-- The per-binding match test of `_get_matching_thumbnail_item` lines
448-456: `sync_key` equals the review output name (Python `None == None`
included), or `sync_key` occurs among the review tags. -/
def thumbKeyMatches (review : Repre) (t : ThumbBinding) : Bool :=
  t.sync_key == review.outputName ||
    (match t.sync_key with
     | some s => review.tags.contains s
     | none => false)

/-- First index whose binding matches. -/
def findMatchIdx (review : Repre) : List ThumbBinding → Nat → Option Nat
  | [], _ => none
  | t :: rest, i =>
    if thumbKeyMatches review t then some i else findMatchIdx review rest (i + 1)

/-- `_get_matching_thumbnail_item`, returning the index of the returned
binding record (the Python function returns the record itself, which the
caller then mutates in place): `None` on an empty list, the first binding
when multiple synced thumbnails are not in play, else the first matching
binding, falling back to the first binding when nothing matches. -/
def matchingThumbnailIdx (review : Repre) (items : List ThumbBinding)
    (multi : Bool) : Option Nat :=
  match items with
  | [] => none
  | _ :: _ =>
    if !multi then some 0
    else
      match findMatchIdx review items 0 with
      | some i => some i
      | none => some 0

/-- `_get_matching_thumbnail_item` as in the source signature (the returned
record value). -/
def get_matching_thumbnail_item (review : Repre) (items : List ThumbBinding)
    (multi : Bool) : Option ThumbBinding :=
  (matchingThumbnailIdx review items multi).bind (fun i => items[i]?)

/-- The working state after the thumbnail loop of `process` lines 207-262:
the binding records, the component list entries appended so far, and the
`thumbnail_item` loop variable (the last built item, used by the
no-review fallback of line 371). -/
structure ThumbPhase where
  bindings : List ThumbBinding
  entries : List Entry
  thumbnail_item : Option ComponentItem
  deriving Repr, DecidableEq

/-- The thumbnail item built for one surviving thumbnail representation
(`process` lines 225-241): named `thumbnail` when review representations
exist, else `ftrackreview-image`, with image metadata, thumbnail flag and
the server location. -/
def mkThumbnailItem (env : Env) (base : ComponentItem)
    (reviewsNonempty : Bool) (repre : Repre) (p : String) : ComponentItem :=
  { base with
    component_path := some p
    component_data := some
      { name := if reviewsNonempty then "thumbnail"
          else "ftrackreview-image",
        metadata := prepare_image_component_metadata env repre p }
    thumbnail := true
    component_location_name := some ftrack_server_location_name }

/-- One iteration of the thumbnail loop (`process` lines 209-262):
representations with an unresolvable path are skipped; otherwise the item
is built and, unless delete-tagged, a `_src` component is created, appended
to the component list (the appended entry aliases the binding record, hence
`Entry.thumbSrcRef`) and stored in the binding; a binding is recorded for
every surviving thumbnail. -/
def thumbStep (cfg : PluginSettings) (env : Env) (inst : PublishInstance)
    (base : ComponentItem) (reviewsNonempty : Bool) (st : ThumbPhase)
    (repre : Repre) : ThumbPhase :=
  match repre.path with
  | none => st
  | some p =>
    if p == "" then st
    else if !(repre.tags.contains "delete") then
      { bindings := st.bindings ++
          [⟨repre.outputName, repre, mkThumbnailItem env base reviewsNonempty
              repre p,
            some (create_src_component cfg env inst repre
              (mkThumbnailItem env base reviewsNonempty repre p)
              unmanaged_location_name)⟩],
        entries := st.entries ++ [Entry.thumbSrcRef st.bindings.length],
        thumbnail_item := some (mkThumbnailItem env base reviewsNonempty
          repre p) }
    else
      { bindings := st.bindings ++
          [⟨repre.outputName, repre, mkThumbnailItem env base reviewsNonempty
              repre p, none⟩],
        entries := st.entries,
        thumbnail_item := some (mkThumbnailItem env base reviewsNonempty
          repre p) }

/-- The thumbnail loop (`process` lines 207-262). -/
def thumbnailPhase (cfg : PluginSettings) (env : Env) (inst : PublishInstance)
    (base : ComponentItem) (reviewsNonempty : Bool) (thumbs : List Repre) :
    ThumbPhase :=
  thumbs.foldl (thumbStep cfg env inst base reviewsNonempty) ⟨[], [], none⟩

/-- The in-place renaming of a binding (lines 311-319): both the thumbnail
item and, when present, its src component get the extended asset name. -/
def renameBinding (e : String) (b : ThumbBinding) : ThumbBinding :=
  { b with
    item := { b.item with asset_name := e }
    src_component := b.src_component.map
      (fun s => { s with asset_name := e }) }

/-- The review-loop state: current binding records, component list entries,
and the `extended_asset_name` loop variable (read after the loop by the
other-representation phase). -/
structure ReviewState where
  bindings : List ThumbBinding
  entries : List Entry
  extended : Option String
  deriving Repr, DecidableEq

/-- The renaming step of the review loop (`process` lines 305-319): when
more than one reviewable survives and the extended name is truthy, the
review item gets the extended asset name and the matched binding is
renamed in place (item and src component). -/
def reviewRename (mr : Bool) (extended : Option String) (midx : Option Nat)
    (bindings : List ThumbBinding) (review_item : ComponentItem) :
    List ThumbBinding × ComponentItem :=
  if mr && optStrTruthy extended then
    let e := extended.getD ""
    (match midx with
     | some i => modifyAt bindings i (renameBinding e)
     | none => bindings,
     { review_item with asset_name := e })
  else (bindings, review_item)

/-- The deep copies of the matched thumbnail item and its src component
appended at `process` lines 321-325 (values read after the rename). -/
def thumbCopyEntries (midx : Option Nat) (bindings : List ThumbBinding) :
    List Entry :=
  match midx with
  | some i =>
    match bindings[i]? with
    | some b =>
      [Entry.val b.item] ++
        (match b.src_component with
         | some s => [Entry.val s]
         | none => [])
    | none => []
  | none => []

/-- The review item construction of `process` lines 327-348: resolve the
path again, attach review video metadata (`ftrackreview-mp4`) or image
metadata with the thumbnail flag (`ftrackreview-image`), and target the
server location. -/
def buildReviewItem (cfg : PluginSettings) (env : Env)
    (inst : PublishInstance) (repre : Repre) (review_item : ComponentItem) :
    ComponentItem :=
  let repre_path := repre.path
  let pathStr := repre_path.getD ""
  let isVid := is_repre_video env repre
  let component_name :=
    if isVid then "ftrackreview-mp4" else "ftrackreview-image"
  let metadata :=
    if isVid then
      prepare_video_component_metadata cfg env inst repre pathStr true
    else prepare_image_component_metadata env repre pathStr
  let review_item :=
    if isVid then review_item else { review_item with thumbnail := true }
  { review_item with
    component_path := repre_path
    component_data := some ⟨component_name, metadata⟩
    component_location_name := some ftrack_server_location_name }

/-- The entries appended for the review item itself (`process` lines
350-369): the `_src` copy unless delete-tagged, then the review item, then
optionally a copy named after the file stem of the representation path. -/
def reviewTailEntries (cfg : PluginSettings) (env : Env)
    (inst : PublishInstance) (repre : Repre) (review_item : ComponentItem) :
    List Entry :=
  (if !(repre.tags.contains "delete") then
    [Entry.val (create_src_component cfg env inst repre review_item
      unmanaged_location_name)]
  else []) ++
  [Entry.val review_item] ++
  (if cfg.upload_reviewable_with_origin_name then
    [Entry.val { review_item with
      component_data := some
        ⟨(splitextOf (pathBasename (repre.path.getD ""))).1,
         compMetadata review_item⟩ }]
  else [])

/-- The body of one review-loop iteration after the movie-priority skip
(`process` lines 281-369): match the binding, compute the extended name
from the base item, rename, append the thumbnail copies, build the review
item and append its entries. -/
def reviewStepCore (cfg : PluginSettings) (env : Env)
    (inst : PublishInstance) (base : ComponentItem) (mr ms : Bool)
    (st : ReviewState) (index : Nat) (repre : Repre) : ReviewState :=
  let midx := matchingThumbnailIdx repre st.bindings ms
  let extended := make_extended_component_name cfg base repre index
  let renamed := reviewRename mr extended midx st.bindings base
  let review_item := buildReviewItem cfg env inst repre renamed.2
  { bindings := renamed.1,
    entries := st.entries ++ thumbCopyEntries midx renamed.1 ++
      reviewTailEntries cfg env inst repre review_item,
    extended := extended }

/-- One iteration of the review loop (`process` lines 275-369): non-video
representations are skipped entirely when a movie review exists (redundant
after the filter), everything else runs `reviewStepCore`. -/
def reviewStep (cfg : PluginSettings) (env : Env) (inst : PublishInstance)
    (base : ComponentItem) (hasMovie multipleReviewable multiSynced : Bool)
    (st : ReviewState) (ir : Nat × Repre) : ReviewState :=
  if !(is_repre_video env ir.2) && hasMovie then st
  else reviewStepCore cfg env inst base multipleReviewable multiSynced st
    ir.1 ir.2

/-- One iteration of the other-representation loop (`process` lines
375-401): skip unresolvable published paths, optionally apply the last
extended name when multiple reviewables exist and the keep-first flag is
off, and append a component named after the representation with non-review
metadata at the unmanaged location. -/
def otherStep (cfg : PluginSettings) (env : Env) (inst : PublishInstance)
    (base : ComponentItem) (multipleReviewable : Bool)
    (extendedFinal : Option String) (entries : List Entry) (repre : Repre) :
    List Entry :=
  match repre.publishedPath with
  | none => entries
  | some p =>
    if p == "" then entries
    else
      let item := base
      let item :=
        if multipleReviewable && !cfg.keep_first_product_name_for_review
            && optStrTruthy extendedFinal then
          { item with asset_name := extendedFinal.getD "" }
        else item
      let item :=
        { item with
          component_path := some p
          component_data := some
            ⟨repre.name,
             prepare_component_metadata cfg env inst repre p false⟩
          component_location_name := some unmanaged_location_name }
      entries ++ [Entry.val item]

/-- The assembled entry list together with the binding states before and
after the review loop.  `finalBindings` is what the aliased thumbnail
`_src` entries observe in Python; `initialBindings` is their value at
append time. -/
structure AssembledParts where
  entries : List Entry
  initialBindings : List ThumbBinding
  finalBindings : List ThumbBinding
  deriving Repr, DecidableEq

/-- The body of `process` after the version check (lines 89-401): base item,
classification, multi-sync detection, thumbnail loop, video-priority
filter, review loop, no-review thumbnail fallback, other loop. -/
def assembleParts (cfg : PluginSettings) (env : Env) (inst : PublishInstance)
    (reps : List Repre) (version_number : Int) : AssembledParts :=
  let base := mkBaseComponentItem cfg env inst version_number
  let cls := classify env reps
  let multiSynced : Bool :=
    decide ((synced_output_names cls.reviews cls.thumbnails).length > 1)
  let tp := thumbnailPhase cfg env inst base (!cls.reviews.isEmpty)
    cls.thumbnails
  let reviews := filteredReviews env reps
  let multipleReviewable : Bool := decide (reviews.length > 1)
  let rst := (withIdx 0 reviews).foldl
    (reviewStep cfg env inst base cls.hasMovieReview multipleReviewable
      multiSynced)
    ⟨tp.bindings, tp.entries, none⟩
  let entries := rst.entries ++
    (if reviews.isEmpty then
      match tp.thumbnail_item with
      | some t => [Entry.val t]
      | none => []
    else [])
  let entries := cls.others.foldl
    (otherStep cfg env inst base multipleReviewable rst.extended) entries
  ⟨entries, tp.bindings, rst.bindings⟩

/-- The list stored into `instance.data["ftrackComponentsList"]`: the entry
list resolved against the final binding states (the aliased thumbnail
`_src` entries show the mutations performed during the review loop). -/
def assemble (cfg : PluginSettings) (env : Env) (inst : PublishInstance)
    (reps : List Repre) (version_number : Int) : List ComponentItem :=
  let parts := assembleParts cfg env inst reps version_number
  parts.entries.map (resolveEntry parts.finalBindings)

/-- `IntegrateFtrackInstance.process`: an absent or empty representation
list returns early with no components; a missing version raises
`ValueError("Instance version not set")` (the `.error` case); otherwise the
assembled component list is produced. -/
def process (cfg : PluginSettings) (env : Env) (inst : PublishInstance) :
    Except String (List ComponentItem) :=
  match inst.representations with
  | none => .ok []
  | some [] => .ok []
  | some (r :: rs) =>
    match inst.version with
    | none => .error "Instance version not set"
    | some v => .ok (assemble cfg env inst (r :: rs) v)

/-- Modelled from the spec: the assembly as the specification describes it
(section 5, "every data structure used during assembly is deep-copied per
component to prevent aliasing"): identical to `assemble` except that the
thumbnail `_src` entries appended during the thumbnail loop keep the value
they had when appended (deep-copy semantics) instead of aliasing the
binding record. -/
def assembleSpecDeepCopy (cfg : PluginSettings) (env : Env)
    (inst : PublishInstance) (reps : List Repre) (version_number : Int) :
    List ComponentItem :=
  let parts := assembleParts cfg env inst reps version_number
  parts.entries.map (resolveEntry parts.initialBindings)

/-- Modelled from the spec: `process` under the deep-copy-per-component
semantics the specification asserts. -/
def processSpecDeepCopy (cfg : PluginSettings) (env : Env)
    (inst : PublishInstance) : Except String (List ComponentItem) :=
  match inst.representations with
  | none => .ok []
  | some [] => .ok []
  | some (r :: rs) =>
    match inst.version with
    | none => .error "Instance version not set"
    | some v => .ok (assembleSpecDeepCopy cfg env inst (r :: rs) v)

/-! Concrete inputs for the scenario claims and witnesses. -/

/-- A concrete environment: small extension tables, a probe that always
fails (raises), a parser that never parses. -/
def envProbeFail : Env :=
  { videoExtensions := [".mp4", ".mov", ".avi"],
    imageExtensions := [".jpg", ".jpeg", ".png", ".exr"],
    ffprobeStreams := fun _ => none,
    parseFps := fun _ => none,
    ftrackVersion := "1.4.0",
    launcherVersion := "1.1.3",
    custAttrKeyServerId := "ayon_id",
    custAttrKeyServerPath := "ayon_path",
    filterStatusProfiles := fun _ => none }

/-- Same environment, but the probe returns a single video stream exposing
neither `r_frame_rate` nor `duration`. -/
def envBareVideoStream : Env :=
  { envProbeFail with
    ffprobeStreams := fun _ => some
      [{ codec_type := "video" }] }

/-- Default plugin settings (the class-attribute values). -/
def cfgDefault : PluginSettings := {}

/-- Settings with `keep_first_product_name_for_review` off. -/
def cfgNoKeep : PluginSettings :=
  { keep_first_product_name_for_review := false }

/-- The thumbnail representation of the single-review scenario. -/
def thumbMain : Repre :=
  { name := "thumbnail", ext := "jpg", tags := ["thumbnail"],
    outputName := some "main", width := some 1920, height := some 1080,
    path := some "/pub/thumb_main.jpg" }

/-- The video review representation of the single-review scenario. -/
def reviewMain : Repre :=
  { name := "h264", ext := "mp4", tags := ["ftrackreview"],
    outputName := some "main", path := some "/pub/review_main.mp4" }

/-- The single-review scenario instance (section 8 of the spec). -/
def instSingleReview : PublishInstance :=
  { representations := some [thumbMain, reviewMain], version := some 1,
    productType := "render", productName := "prod",
    frameStart := 1001, frameEnd := 1010, contextFps := 25 }

/-- First review of the two-review, two-thumbnail scenario. -/
def reviewO1 : Repre :=
  { name := "r1", ext := "mp4", tags := ["ftrackreview"],
    outputName := some "o1", path := some "/pub/r1.mp4" }

/-- Second review of the two-review, two-thumbnail scenario. -/
def reviewO2 : Repre :=
  { name := "r2", ext := "mp4", tags := ["ftrackreview"],
    outputName := some "o2", path := some "/pub/r2.mp4" }

/-- First thumbnail (sync key `o1`) of the two-review scenario. -/
def thumbO1 : Repre :=
  { name := "t1", ext := "jpg", tags := ["thumbnail"],
    outputName := some "o1", width := some 1920, height := some 1080,
    path := some "/pub/t1.jpg" }

/-- Second thumbnail (sync key `o2`) of the two-review scenario. -/
def thumbO2 : Repre :=
  { name := "t2", ext := "jpg", tags := ["thumbnail"],
    outputName := some "o2", width := some 1920, height := some 1080,
    path := some "/pub/t2.jpg" }

/-- The two-review, two-thumbnail scenario instance (section 8). -/
def instTwoReviews : PublishInstance :=
  { representations := some [thumbO1, thumbO2, reviewO1, reviewO2],
    version := some 1, productType := "render", productName := "prod",
    frameStart := 1001, frameEnd := 1010, contextFps := 25 }

/-- A single thumbnail whose output name matches only the first of two
reviews (multi-sync stays off: only one correlated name). -/
def thumbSolo : Repre :=
  { name := "t", ext := "jpg", tags := ["thumbnail"],
    outputName := some "main", width := some 1920, height := some 1080,
    path := some "/pub/t.jpg" }

/-- First review (output name `main`) of the aliasing scenario. -/
def reviewAliasA : Repre :=
  { name := "r1", ext := "mp4", tags := ["ftrackreview"],
    outputName := some "main", path := some "/pub/ra.mp4" }

/-- Second review (output name `alt`) of the aliasing scenario. -/
def reviewAliasB : Repre :=
  { name := "r2", ext := "mp4", tags := ["ftrackreview"],
    outputName := some "alt", path := some "/pub/rb.mp4" }

/-- The aliasing scenario: two reviews, one thumbnail, keep-first off, so
the binding src component is renamed twice after its aliased entry was
appended. -/
def instAliasing : PublishInstance :=
  { representations := some [thumbSolo, reviewAliasA, reviewAliasB],
    version := some 1, productType := "render", productName := "prod",
    frameStart := 1001, frameEnd := 1010, contextFps := 25 }

/-- The probe-failure video representation of the metadata scenario. -/
def reviewProbe : Repre :=
  { name := "review", ext := "mp4", tags := ["ftrackreview"],
    outputName := some "main", path := some "/pub/a.mp4" }

/-- The metadata scenario instance: frame range 1001-1010 declared at
instance level. -/
def instProbe : PublishInstance :=
  { representations := some [reviewProbe], version := some 1,
    productType := "render", productName := "prod",
    frameStart := 1001, frameEnd := 1010, contextFps := 25 }

/-- Settings allow-listing only `duration`. -/
def cfgDurationOnly : PluginSettings :=
  { additional_metadata_keys := ["duration"] }

/-! Observation helpers used by the stated properties. -/

/-- The component list of a successful run (empty on the error case). -/
def okList : Except String (List ComponentItem) → List ComponentItem
  | .ok l => l
  | .error _ => []

/-- An item with its asset name blanked (everything except `asset_data.name`). -/
def eraseAssetName (c : ComponentItem) : ComponentItem :=
  { c with asset_name := "" }

/-- Number of entries carrying a given component name. -/
def countByName (l : List ComponentItem) (n : String) : Nat :=
  (l.filter (fun c => compName c == n)).length

/-- Whether a metadata map carries a review-type `ftr_meta` payload
(the only payload shape with a frameIn/frameOut pair). -/
def mdHasReviewPayload (md : List (String × MetaValue)) : Bool :=
  match mdLookup md "ftr_meta" with
  | some (.payload (.review _)) => true
  | _ => false

/-- Whether a component carries a review-type `ftr_meta` payload. -/
def hasReviewPayload (c : ComponentItem) : Bool :=
  mdHasReviewPayload (compMetadata c)

/-- Whether one string ends with another (`str.endswith`). -/
def strEndsWith (s suffix : String) : Bool :=
  suffix.toList.isSuffixOf s.toList

/-- Every path the external resolver produced for some representation of
the instance (both resolution modes). -/
def resolvedPathsOf (reps : List Repre) : List String :=
  reps.filterMap Repre.path ++ reps.filterMap Repre.publishedPath

/-- A component whose `component_path` is set, non-empty, and equal to a
resolved path of one of the instance representations. -/
def goodPath (reps : List Repre) (c : ComponentItem) : Prop :=
  ∃ p, c.component_path = some p ∧ p ≠ "" ∧ p ∈ resolvedPathsOf reps

deriving instance DecidableEq for Except

/-! Claim theorems. -/

/-- C5: an instance whose representation list is absent or empty produces
an empty component list and no exception, and the only exception `process`
ever raises is the explicit missing-version `ValueError`. -/
theorem claim5_empty_reps_ok_and_only_version_error :
    (∀ (cfg : PluginSettings) (env : Env) (inst : PublishInstance),
      (inst.representations = none ∨ inst.representations = some []) →
      process cfg env inst = .ok []) ∧
    (∀ (cfg : PluginSettings) (env : Env) (inst : PublishInstance)
      (e : String),
      process cfg env inst = .error e → e = "Instance version not set") := by
  constructor
  · intro cfg env inst h
    rcases h with h | h <;> simp [process, h]
  · intro cfg env inst e h
    unfold process at h
    split at h
    · exact absurd h (by simp)
    · exact absurd h (by simp)
    · split at h
      · injection h with h2
        exact h2.symm
      · exact absurd h (by simp)

/-- Witness for C5 at a concrete empty-representation instance. -/
theorem claim5_witness :
    process cfgDefault envProbeFail { representations := some [] } = .ok [] :=
  claim5_empty_reps_ok_and_only_version_error.1 cfgDefault envProbeFail
    { representations := some [] } (Or.inr rfl)

/-- C4, counterexample: on the single-review scenario the output is not the
claimed four-item sequence thumbnail item, thumbnail shadow, review item,
review shadow. -/
theorem claim4_counterexample :
    ¬ ((process cfgDefault envProbeFail instSingleReview).map
        (fun l => l.map compName) =
      .ok ["thumbnail", "thumbnail_src", "ftrackreview-mp4",
           "ftrackreview-mp4_src"]) := by
  decide

/-- C4, amended: the single-review scenario assembles, in order, the
thumbnail shadow, the thumbnail item named `thumbnail`, a second copy of
the thumbnail shadow, the review shadow, and the review item named
`ftrackreview-mp4`; no item carries an extended asset name. -/
theorem claim4_amended :
    (process cfgDefault envProbeFail instSingleReview).map
      (fun l => l.map (fun c => (compName c, c.asset_name))) =
    .ok [("thumbnail_src", "prod"), ("thumbnail", "prod"),
         ("thumbnail_src", "prod"), ("ftrackreview-mp4_src", "prod"),
         ("ftrackreview-mp4", "prod")] := by
  decide

/-- C3, counterexample: when the probe obtains no streams for an `.mp4`
review, `_prepare_video_component_metadata` returns early: the metadata map
contains no `Duration` entry (even with `duration` allow-listed) and no
structured `ftr_meta` payload at all, contrary to the claimed
`duration=10` entry and `frameOut=10` fallback. -/
theorem claim3_counterexample :
    mdLookup (prepare_video_component_metadata cfgDurationOnly envProbeFail
      instProbe reviewProbe "/pub/a.mp4" true) "Duration" = none ∧
    mdLookup (prepare_video_component_metadata cfgDurationOnly envProbeFail
      instProbe reviewProbe "/pub/a.mp4" true) "ftr_meta" = none := by
  decide

/-- C3, amended: the claimed degradation happens one step later: when the
probe does yield a video stream but the stream exposes no usable
`r_frame_rate`/`duration` pair, the metadata map contains `Duration = 10`
(frame range 1001-1010), no FPS or codec entries, and the review payload
falls back to `frameOut = duration_frames = 10`; an outright probe failure
(no streams) instead returns only the version rows (here: the empty map). -/
theorem claim3_amended :
    prepare_video_component_metadata cfgDurationOnly envBareVideoStream
      instProbe reviewProbe "/pub/a.mp4" true =
      [("Duration", .num 10),
       ("ftr_meta", .payload (.review ⟨0, 10, 25⟩))] ∧
    mdLookup (prepare_video_component_metadata cfgDurationOnly
      envBareVideoStream instProbe reviewProbe "/pub/a.mp4" true) "FPS"
      = none ∧
    mdLookup (prepare_video_component_metadata cfgDurationOnly
      envBareVideoStream instProbe reviewProbe "/pub/a.mp4" true) "Codec"
      = none ∧
    prepare_video_component_metadata cfgDurationOnly envProbeFail
      instProbe reviewProbe "/pub/a.mp4" true = [] := by
  refine ⟨by decide, by decide, by decide, by decide⟩

/-- C6, counterexample: in the two-review scenario with
`keep_first_product_name_for_review=false`, no assembled component keeps
the original asset name `prod` — in particular the first review and its
thumbnail/shadow are renamed too, refuting the claimed flag-independent
index-0 suppression. -/
theorem claim6_counterexample :
    (okList (process cfgNoKeep envProbeFail instTwoReviews)).all
      (fun c => !(c.asset_name == "prod")) = true := by
  decide

/-- C6, amended: with the keep-first flag off, the second review set is
renamed to `prod_r2` and the first review set is renamed to `prod_r1`
(suppression of the extended name requires the flag AND index 0: it is the
conjunction, not index alone).  The first two entries are the aliased
thumbnail shadows appended during the thumbnail loop, showing the renames
of their bindings. -/
theorem claim6_amended :
    (okList (process cfgNoKeep envProbeFail instTwoReviews)).map
      (fun c => (compName c, c.asset_name)) =
      [("thumbnail_src", "prod_r1"), ("thumbnail_src", "prod_r2"),
       ("thumbnail", "prod_r1"), ("thumbnail_src", "prod_r1"),
       ("ftrackreview-mp4_src", "prod_r1"), ("ftrackreview-mp4", "prod_r1"),
       ("thumbnail", "prod_r2"), ("thumbnail_src", "prod_r2"),
       ("ftrackreview-mp4_src", "prod_r2"), ("ftrackreview-mp4", "prod_r2")]
    ∧ ∀ (cfg : PluginSettings) (item : ComponentItem) (repre : Repre)
        (idx : Nat),
        (make_extended_component_name cfg item repre idx = none ↔
          (cfg.keep_first_product_name_for_review = true ∧ idx = 0)) := by
  constructor
  · decide
  · intro cfg item repre idx
    unfold make_extended_component_name
    split
    · rename_i h
      simp only [Bool.and_eq_true, beq_iff_eq] at h
      simp [h]
    · rename_i h
      simp only [Bool.and_eq_true, beq_iff_eq] at h
      simp only [reduceCtorEq, false_iff]
      intro hc
      exact h ⟨hc.1, hc.2⟩

/-- C2, counterexample: in the aliasing scenario the first assembled entry
(the thumbnail `_src` shadow appended during the thumbnail loop) ends up
with asset name `prod_r2` — the extended name assigned by the later,
second review iteration — while under the deep-copy-per-component
semantics the claim asserts it would still read `prod`: a later in-place
rename does change a component already appended. -/
theorem claim2_counterexample :
    ((okList (process cfgNoKeep envProbeFail instAliasing))[0]?).map
      (fun c => c.asset_name) = some "prod_r2" ∧
    ((okList (processSpecDeepCopy cfgNoKeep envProbeFail
      instAliasing))[0]?).map (fun c => c.asset_name) = some "prod" := by
  refine ⟨by decide, by decide⟩

/-- Two binding records that agree on everything except the asset names
stored in their item and src component. -/
def bindingNameOnly (a b : ThumbBinding) : Prop :=
  a.sync_key = b.sync_key ∧ a.representation = b.representation ∧
  eraseAssetName a.item = eraseAssetName b.item ∧
  a.src_component.map eraseAssetName = b.src_component.map eraseAssetName

theorem eraseAssetName_setName (c : ComponentItem) (e : String) :
    eraseAssetName { c with asset_name := e } = eraseAssetName c := by
  cases c; rfl

theorem bindingNameOnly_refl (b : ThumbBinding) : bindingNameOnly b b :=
  ⟨rfl, rfl, rfl, rfl⟩

theorem bindingNameOnly_trans {a b c : ThumbBinding}
    (h1 : bindingNameOnly a b) (h2 : bindingNameOnly b c) :
    bindingNameOnly a c :=
  ⟨h1.1.trans h2.1, h1.2.1.trans h2.2.1, h1.2.2.1.trans h2.2.2.1,
   h1.2.2.2.trans h2.2.2.2⟩

theorem bindingNameOnly_rename (b : ThumbBinding) (e : String) :
    bindingNameOnly b (renameBinding e b) := by
  refine ⟨rfl, rfl, ?_, ?_⟩
  · exact (eraseAssetName_setName b.item e).symm
  · cases hs : b.src_component with
    | none => simp [renameBinding, hs]
    | some s => simp [renameBinding, hs, eraseAssetName_setName]

theorem forall2_nameOnly_refl (l : List ThumbBinding) :
    List.Forall₂ bindingNameOnly l l := by
  induction l with
  | nil => exact .nil
  | cons x xs ih => exact .cons (bindingNameOnly_refl x) ih

theorem forall2_nameOnly_modifyAt (init cur : List ThumbBinding)
    (h : List.Forall₂ bindingNameOnly init cur) (i : Nat) (e : String) :
    List.Forall₂ bindingNameOnly init (modifyAt cur i (renameBinding e)) := by
  induction h generalizing i with
  | nil => exact .nil
  | cons hx hrest ih =>
    cases i with
    | zero =>
      exact .cons (bindingNameOnly_trans hx (bindingNameOnly_rename _ e)) hrest
    | succ n => exact .cons hx (ih n)

/-- When the movie-priority skip fires, the review step is the identity. -/
theorem reviewStep_skip (cfg : PluginSettings) (env : Env)
    (inst : PublishInstance) (base : ComponentItem) (hm mr ms : Bool)
    (st : ReviewState) (ir : Nat × Repre)
    (h : (!(is_repre_video env ir.2) && hm) = true) :
    reviewStep cfg env inst base hm mr ms st ir = st :=
  if_pos h

/-- When the skip does not fire, the review step is the core body. -/
theorem reviewStep_go (cfg : PluginSettings) (env : Env)
    (inst : PublishInstance) (base : ComponentItem) (hm mr ms : Bool)
    (st : ReviewState) (ir : Nat × Repre)
    (h : (!(is_repre_video env ir.2) && hm) = false) :
    reviewStep cfg env inst base hm mr ms st ir =
      reviewStepCore cfg env inst base mr ms st ir.1 ir.2 :=
  if_neg (by simp [h])

/-- The bindings a core step produces. -/
theorem reviewStepCore_bindings (cfg : PluginSettings) (env : Env)
    (inst : PublishInstance) (base : ComponentItem) (mr ms : Bool)
    (st : ReviewState) (index : Nat) (repre : Repre) :
    (reviewStepCore cfg env inst base mr ms st index repre).bindings =
      (reviewRename mr (make_extended_component_name cfg base repre index)
        (matchingThumbnailIdx repre st.bindings ms) st.bindings base).1 :=
  rfl

/-- The entries a core step produces. -/
theorem reviewStepCore_entries (cfg : PluginSettings) (env : Env)
    (inst : PublishInstance) (base : ComponentItem) (mr ms : Bool)
    (st : ReviewState) (index : Nat) (repre : Repre) :
    (reviewStepCore cfg env inst base mr ms st index repre).entries =
      st.entries ++
        thumbCopyEntries (matchingThumbnailIdx repre st.bindings ms)
          (reviewRename mr (make_extended_component_name cfg base repre index)
            (matchingThumbnailIdx repre st.bindings ms) st.bindings base).1 ++
        reviewTailEntries cfg env inst repre
          (buildReviewItem cfg env inst repre
            (reviewRename mr
              (make_extended_component_name cfg base repre index)
              (matchingThumbnailIdx repre st.bindings ms) st.bindings
              base).2) :=
  rfl

/-- The rename step either leaves the bindings alone or renames one in
place. -/
theorem reviewRename_fst_cases (mr : Bool) (extended : Option String)
    (midx : Option Nat) (bindings : List ThumbBinding)
    (item : ComponentItem) :
    (reviewRename mr extended midx bindings item).1 = bindings ∨
    ∃ i e, (reviewRename mr extended midx bindings item).1 =
      modifyAt bindings i (renameBinding e) := by
  unfold reviewRename
  split
  · cases midx with
    | none => exact Or.inl rfl
    | some i => exact Or.inr ⟨i, _, rfl⟩
  · exact Or.inl rfl

/-- The bindings component of a review step is either unchanged or one
in-place rename of one binding. -/
theorem reviewStep_bindings_cases (cfg : PluginSettings) (env : Env)
    (inst : PublishInstance) (base : ComponentItem)
    (hm mr ms : Bool) (st : ReviewState) (ir : Nat × Repre) :
    (reviewStep cfg env inst base hm mr ms st ir).bindings = st.bindings ∨
    ∃ i e, (reviewStep cfg env inst base hm mr ms st ir).bindings =
      modifyAt st.bindings i (renameBinding e) := by
  cases h : (!(is_repre_video env ir.2) && hm) with
  | true => rw [reviewStep_skip cfg env inst base hm mr ms st ir h]
            exact Or.inl rfl
  | false =>
    rw [reviewStep_go cfg env inst base hm mr ms st ir h,
      reviewStepCore_bindings]
    exact reviewRename_fst_cases mr _ _ st.bindings base

theorem reviewFold_bindings_nameOnly (cfg : PluginSettings) (env : Env)
    (inst : PublishInstance) (base : ComponentItem) (hm mr ms : Bool)
    (irs : List (Nat × Repre)) (st : ReviewState)
    (init : List ThumbBinding)
    (h : List.Forall₂ bindingNameOnly init st.bindings) :
    List.Forall₂ bindingNameOnly init
      (irs.foldl (reviewStep cfg env inst base hm mr ms) st).bindings := by
  induction irs generalizing st with
  | nil => exact h
  | cons ir rest ih =>
    refine ih (reviewStep cfg env inst base hm mr ms st ir) ?_
    rcases reviewStep_bindings_cases cfg env inst base hm mr ms st ir with
      hc | ⟨i, e, hc⟩
    · rw [hc]; exact h
    · rw [hc]; exact forall2_nameOnly_modifyAt init st.bindings h i e

theorem forall2_getElem? {R : ThumbBinding → ThumbBinding → Prop}
    {l l' : List ThumbBinding} (h : List.Forall₂ R l l') (i : Nat) :
    (l[i]? = none ∧ l'[i]? = none) ∨
    ∃ a b, l[i]? = some a ∧ l'[i]? = some b ∧ R a b := by
  induction h generalizing i with
  | nil => exact Or.inl ⟨rfl, rfl⟩
  | cons hx hrest ih =>
    cases i with
    | zero => exact Or.inr ⟨_, _, by simp, by simp, hx⟩
    | succ n => simpa using ih n

theorem eraseAssetName_resolve_nameOnly
    (initB finalB : List ThumbBinding)
    (h : List.Forall₂ bindingNameOnly initB finalB) (en : Entry) :
    eraseAssetName (resolveEntry finalB en) =
    eraseAssetName (resolveEntry initB en) := by
  cases en with
  | val c => rfl
  | thumbSrcRef i =>
    rcases forall2_getElem? h i with ⟨h1, h2⟩ | ⟨a, b, h1, h2, hr⟩
    · simp [resolveEntry, h1, h2]
    · simp only [resolveEntry, h1, h2]
      have hsrc := hr.2.2.2
      cases ha : a.src_component with
      | none =>
        rw [ha] at hsrc
        cases hb : b.src_component with
        | none => rfl
        | some sb => rw [hb] at hsrc; simp at hsrc
      | some sa =>
        rw [ha] at hsrc
        cases hb : b.src_component with
        | none => rw [hb] at hsrc; simp at hsrc
        | some sb =>
          rw [hb] at hsrc
          simp at hsrc
          exact hsrc.symm

/-- C2, amended: every assembled component agrees with the deep-copy
semantics of the specification on every field except the asset name; the
only aliased entries are the thumbnail `_src` shadows appended during the
thumbnail loop, and the renaming step mutates nothing but
`asset_data.name`, so the code-as-is and the deep-copy reading produce
lists of the same length that are pointwise equal after blanking
`asset_name`. -/
theorem claim2_amended (cfg : PluginSettings) (env : Env)
    (inst : PublishInstance) :
    (process cfg env inst).map (fun l => l.map eraseAssetName) =
    (processSpecDeepCopy cfg env inst).map (fun l => l.map eraseAssetName) := by
  unfold process processSpecDeepCopy
  cases hr : inst.representations with
  | none => rfl
  | some reps =>
    cases reps with
    | nil => rfl
    | cons r rs =>
      cases hv : inst.version with
      | none => rfl
      | some v =>
        simp only [Except.map]
        congr 1
        unfold assemble assembleSpecDeepCopy
        simp only [List.map_map]
        apply List.map_congr_left
        intro en _
        simp only [Function.comp_apply]
        apply eraseAssetName_resolve_nameOnly
        unfold assembleParts
        dsimp only
        exact reviewFold_bindings_nameOnly _ _ _ _ _ _ _ _ _ _
          (forall2_nameOnly_refl _)

theorem findMatchIdx_getElem (review : Repre) :
    ∀ (l : List ThumbBinding) (k i : Nat),
      findMatchIdx review l k = some i →
      k ≤ i ∧ ∃ t, l[i - k]? = some t ∧ thumbKeyMatches review t = true := by
  intro l
  induction l with
  | nil => intro k i h; exact absurd h (by simp [findMatchIdx])
  | cons t rest ih =>
    intro k i h
    unfold findMatchIdx at h
    by_cases hm : thumbKeyMatches review t = true
    · rw [if_pos hm] at h
      injection h with h
      subst h
      exact ⟨Nat.le_refl k, t, by simp, hm⟩
    · rw [if_neg hm] at h
      obtain ⟨hk, t2, hget, hmatch⟩ := ih (k + 1) i h
      refine ⟨Nat.le_of_succ_le hk, t2, ?_, hmatch⟩
      have : i - k = (i - (k + 1)) + 1 := by omega
      rw [this]
      simpa using hget

theorem findMatchIdx_none (review : Repre) :
    ∀ (l : List ThumbBinding),
      (∀ t ∈ l, thumbKeyMatches review t = false) →
      ∀ k, findMatchIdx review l k = none := by
  intro l
  induction l with
  | nil => intro _ _; rfl
  | cons t rest ih =>
    intro h k
    unfold findMatchIdx
    rw [if_neg (by simp [h t (by simp)])]
    exact ih (fun x hx => h x (List.mem_cons_of_mem t hx)) (k + 1)

theorem get_matching_isSome (review : Repre) (b : ThumbBinding)
    (rest : List ThumbBinding) (multi : Bool) :
    ∃ t, get_matching_thumbnail_item review (b :: rest) multi = some t := by
  cases multi with
  | false =>
    exact ⟨b, by simp [get_matching_thumbnail_item, matchingThumbnailIdx]⟩
  | true =>
    cases hf : findMatchIdx review (b :: rest) 0 with
    | none =>
      refine ⟨b, ?_⟩
      simp [get_matching_thumbnail_item, matchingThumbnailIdx, hf]
    | some i =>
      obtain ⟨-, t, hget, -⟩ := findMatchIdx_getElem review (b :: rest) 0 i hf
      refine ⟨t, ?_⟩
      simp only [get_matching_thumbnail_item, matchingThumbnailIdx, hf]
      simpa using hget

/-- C8: the thumbnail matcher returns `None` exactly on an empty binding
list; with multi-sync off it returns the first binding for every review
(so two uncorrelated reviews and a single thumbnail both bind to that one
thumbnail); and with multi-sync on but no binding whose sync key matches
the review's output name or tags, it falls back to the first binding
instead of dropping the review.  (The accompanying warning log is outside
the embedding.) -/
theorem claim8_matcher_contract :
    ∀ (review : Repre) (items : List ThumbBinding) (multi : Bool),
      (get_matching_thumbnail_item review items multi = none ↔ items = []) ∧
      (multi = false → ∀ (b : ThumbBinding) (rest : List ThumbBinding),
        items = b :: rest →
        get_matching_thumbnail_item review items multi = some b) ∧
      (multi = true → (∀ t ∈ items, thumbKeyMatches review t = false) →
        ∀ (b : ThumbBinding) (rest : List ThumbBinding),
        items = b :: rest →
        get_matching_thumbnail_item review items multi = some b) := by
  intro review items multi
  refine ⟨?_, ?_, ?_⟩
  · constructor
    · intro h
      cases items with
      | nil => rfl
      | cons b rest =>
        obtain ⟨t, ht⟩ := get_matching_isSome review b rest multi
        rw [ht] at h
        exact absurd h (by simp)
    · intro h
      subst h
      rfl
  · intro hm b rest hitems
    subst hitems
    subst hm
    simp [get_matching_thumbnail_item, matchingThumbnailIdx]
  · intro hm hnone b rest hitems
    subst hitems
    subst hm
    have hf := findMatchIdx_none review (b :: rest) hnone 0
    simp [get_matching_thumbnail_item, matchingThumbnailIdx, hf]

/-- Witness for C8: with multi-sync on and a binding list whose single
binding does not match the review, the matcher still returns that first
binding. -/
theorem claim8_witness :
    get_matching_thumbnail_item reviewAliasB
      [⟨some "main", thumbSolo, dummyComponent, none⟩] true =
      some ⟨some "main", thumbSolo, dummyComponent, none⟩ :=
  (claim8_matcher_contract reviewAliasB
    [⟨some "main", thumbSolo, dummyComponent, none⟩] true).2.2 rfl
    (by decide) _ [] rfl

theorem mdLookup_mdSet_self (md : List (String × MetaValue)) (k : String)
    (v : MetaValue) : mdLookup (mdSet md k v) k = some v := by
  induction md with
  | nil => simp [mdSet, mdLookup]
  | cons p rest ih =>
    by_cases h : (p.1 == k) = true
    · simp [mdSet, mdLookup, h]
    · simp only [mdSet]
      rw [if_neg (by simp [h])]
      simp only [mdLookup]
      rw [if_neg (by simp_all)]
      exact ih

theorem mdLookup_mdSet_ne (md : List (String × MetaValue)) (k k' : String)
    (v : MetaValue) (h : k' ≠ k) :
    mdLookup (mdSet md k v) k' = mdLookup md k' := by
  have hkk : ¬ ((k == k') = true) := by
    simp only [beq_iff_eq]
    exact fun hc => h hc.symm
  induction md with
  | nil =>
    simp only [mdSet, mdLookup]
    rw [if_neg hkk]
  | cons p rest ih =>
    by_cases hp : (p.1 == k) = true
    · simp only [mdSet]
      rw [if_pos hp]
      simp only [mdLookup]
      rw [if_neg hkk, if_neg ?_]
      · simp only [beq_iff_eq] at hp ⊢
        rw [hp]
        exact fun hc => h hc.symm
    · simp only [mdSet]
      rw [if_neg hp]
      simp only [mdLookup]
      split
      · rfl
      · exact ih

theorem versionEntries_lookup_ne (cfg : PluginSettings) (env : Env)
    (lbl : String) (h1 : lbl ≠ "AYON ftrack version")
    (h2 : lbl ≠ "AYON launcher version") :
    mdLookup (versionMetadataEntries cfg env) lbl = none := by
  unfold versionMetadataEntries
  split
  · split
    · rw [mdLookup_mdSet_ne _ _ _ _ h2, mdLookup_mdSet_ne _ _ _ _ h1]
      rfl
    · rw [mdLookup_mdSet_ne _ _ _ _ h1]
      rfl
  · split
    · rw [mdLookup_mdSet_ne _ _ _ _ h2]
      rfl
    · rfl

theorem addScalar_lookup_cases (keys : List String) :
    ∀ (pairs : List (String × Option MetaValue))
      (md : List (String × MetaValue)) (lbl : String) (v : MetaValue),
      mdLookup (addScalarEntries keys pairs md) lbl = some v →
      metaValueTruthy v = true ∨ mdLookup md lbl = some v := by
  intro pairs
  induction pairs with
  | nil => intro md lbl v h; exact Or.inr h
  | cons p rest ih =>
    intro md lbl v h
    simp only [addScalarEntries, List.foldl_cons] at h
    rcases ih _ lbl v h with ht | hmd
    · exact Or.inl ht
    · obtain ⟨k0, v0⟩ := p
      cases v0 with
      | none => simp only [scalarStep] at hmd; exact Or.inr hmd
      | some mv =>
        simp only [scalarStep] at hmd
        by_cases hg : (!(metaValueTruthy mv) || !(keys.contains k0)) = true
        · rw [if_pos hg] at hmd
          exact Or.inr hmd
        · rw [if_neg hg] at hmd
          by_cases hl : lbl = metadata_keys_to_label k0
          · rw [hl, mdLookup_mdSet_self] at hmd
            injection hmd with hmd
            subst hmd
            simp only [Bool.or_eq_true, Bool.not_eq_true] at hg
            push_neg at hg
            exact Or.inl (by simpa using hg.1)
          · rw [mdLookup_mdSet_ne _ _ _ _ hl] at hmd
            exact Or.inr hmd

theorem addScalar_lookup_none (keys : List String) :
    ∀ (pairs : List (String × Option MetaValue))
      (md : List (String × MetaValue)) (lbl : String),
      mdLookup md lbl = none →
      (∀ k mv, (k, some mv) ∈ pairs → metadata_keys_to_label k = lbl →
        metaValueTruthy mv = false) →
      mdLookup (addScalarEntries keys pairs md) lbl = none := by
  intro pairs
  induction pairs with
  | nil => intro md lbl h _; exact h
  | cons p rest ih =>
    intro md lbl h hp
    simp only [addScalarEntries, List.foldl_cons]
    refine ih _ lbl ?_ (fun k mv hm hl => hp k mv (by simp [hm]) hl)
    obtain ⟨k0, v0⟩ := p
    cases v0 with
    | none => simpa only [scalarStep] using h
    | some mv =>
      simp only [scalarStep]
      by_cases hg : (!(metaValueTruthy mv) || !(keys.contains k0)) = true
      · rw [if_pos hg]; exact h
      · rw [if_neg hg]
        by_cases hl : lbl = metadata_keys_to_label k0
        · exfalso
          have := hp k0 mv (by simp) hl.symm
          simp only [Bool.or_eq_true, Bool.not_eq_true] at hg
          push_neg at hg
          rw [this] at hg
          exact absurd hg.1 (by simp)
        · rw [mdLookup_mdSet_ne _ _ _ _ hl]
          exact h

/-- The early return of `_prepare_video_component_metadata` when no video
stream is found and the extension is not `.exr`. -/
theorem prepare_video_early (cfg : PluginSettings) (env : Env)
    (inst : PublishInstance) (repre : Repre) (component_path : String)
    (is_review : Bool)
    (h : ((((env.ffprobeStreams component_path).getD []).filter
        (fun s => s.codec_type == "video")).isEmpty &&
        !(pathSplitextExt component_path == ".exr")) = true) :
    prepare_video_component_metadata cfg env inst repre component_path
      is_review = versionMetadataEntries cfg env :=
  if_pos h

/-- The main branch of `_prepare_video_component_metadata`. -/
theorem prepare_video_main (cfg : PluginSettings) (env : Env)
    (inst : PublishInstance) (repre : Repre) (component_path : String)
    (is_review : Bool)
    (h : ((((env.ffprobeStreams component_path).getD []).filter
        (fun s => s.codec_type == "video")).isEmpty &&
        !(pathSplitextExt component_path == ".exr")) = false) :
    prepare_video_component_metadata cfg env inst repre component_path
      is_review =
    videoMetadataMain cfg env inst repre is_review
      (versionMetadataEntries cfg env)
      (((env.ffprobeStreams component_path).getD []).filter
        (fun s => s.codec_type == "video")) :=
  if_neg (by simp [h])

/-- The main body always produces the scalar rows followed by one
`ftr_meta` assignment. -/
theorem videoMetadataMain_shape (cfg : PluginSettings) (env : Env)
    (inst : PublishInstance) (repre : Repre) (is_review : Bool)
    (md0 : List (String × MetaValue)) (vs : List FFStream) :
    ∃ pl, videoMetadataMain cfg env inst repre is_review md0 vs =
      mdSet (addScalarEntries cfg.additional_metadata_keys
        (scalarPairs
          (effectiveFps (scanVideoStreams env vs ⟨none, none, none, none, none⟩)
            repre inst)
          (effectiveFrameRange repre inst).1
          (effectiveFrameRange repre inst).2
          (pyAdd (pySub (effectiveFrameRange repre inst).2
            (effectiveFrameRange repre inst).1) 1)
          (scanVideoStreams env vs ⟨none, none, none, none, none⟩).width
          (scanVideoStreams env vs ⟨none, none, none, none, none⟩).height
          (scanVideoStreams env vs ⟨none, none, none, none, none⟩).codec)
        md0) "ftr_meta" (.payload pl) := by
  cases is_review with
  | true => exact ⟨_, rfl⟩
  | false => exact ⟨_, rfl⟩

/-- C10: an allow-listed scalar field appears in the labelled video
metadata map only with a truthy value — any entry found under one of the
seven scalar labels is non-zero/non-empty — and in particular an effective
`frame_start` of `0` is omitted even when `frame_start` is allow-listed. -/
theorem claim10_scalar_truthiness (cfg : PluginSettings) (env : Env)
    (inst : PublishInstance) (repre : Repre) (component_path : String)
    (is_review : Bool) :
    (∀ lbl v,
      lbl ∈ ["FPS", "Frame start", "Frame end", "Duration",
        "Resolution width", "Resolution height", "Codec"] →
      mdLookup (prepare_video_component_metadata cfg env inst repre
        component_path is_review) lbl = some v →
      metaValueTruthy v = true) ∧
    ((effectiveFrameRange repre inst).1 = 0 →
      mdLookup (prepare_video_component_metadata cfg env inst repre
        component_path is_review) "Frame start" = none) := by
  constructor
  · intro lbl v hmem hlook
    by_cases hE : ((((env.ffprobeStreams component_path).getD []).filter
        (fun s => s.codec_type == "video")).isEmpty &&
        !(pathSplitextExt component_path == ".exr")) = true
    · rw [prepare_video_early cfg env inst repre component_path is_review hE]
        at hlook
      rw [versionEntries_lookup_ne cfg env lbl ?_ ?_] at hlook
      · exact absurd hlook (by simp)
      · fin_cases hmem <;> decide
      · fin_cases hmem <;> decide
    · rw [prepare_video_main cfg env inst repre component_path is_review
        (by simpa using hE)] at hlook
      obtain ⟨pl, hshape⟩ := videoMetadataMain_shape cfg env inst repre
        is_review (versionMetadataEntries cfg env) _
      rw [hshape] at hlook
      rw [mdLookup_mdSet_ne _ _ _ _ ?_] at hlook
      · rcases addScalar_lookup_cases cfg.additional_metadata_keys _ _ _ _
          hlook with ht | hmd
        · exact ht
        · rw [versionEntries_lookup_ne cfg env lbl ?_ ?_] at hmd
          · exact absurd hmd (by simp)
          · fin_cases hmem <;> decide
          · fin_cases hmem <;> decide
      · fin_cases hmem <;> decide
  · intro h0
    by_cases hE : ((((env.ffprobeStreams component_path).getD []).filter
        (fun s => s.codec_type == "video")).isEmpty &&
        !(pathSplitextExt component_path == ".exr")) = true
    · rw [prepare_video_early cfg env inst repre component_path is_review hE]
      exact versionEntries_lookup_ne cfg env _ (by decide) (by decide)
    · rw [prepare_video_main cfg env inst repre component_path is_review
        (by simpa using hE)]
      obtain ⟨pl, hshape⟩ := videoMetadataMain_shape cfg env inst repre
        is_review (versionMetadataEntries cfg env) _
      rw [hshape]
      rw [mdLookup_mdSet_ne _ _ _ _ (by decide)]
      refine addScalar_lookup_none cfg.additional_metadata_keys _ _ _
        (versionEntries_lookup_ne cfg env _ (by decide) (by decide)) ?_
      intro k mv hkm hkl
      simp only [scalarPairs, List.mem_cons, List.not_mem_nil, or_false,
        Prod.mk.injEq] at hkm
      rcases hkm with ⟨hk, hv⟩ | ⟨hk, hv⟩ | ⟨hk, hv⟩ | ⟨hk, hv⟩ | hkm | hkm
        | ⟨hk, hv⟩ | hkm
      · subst hk; exact absurd hkl (by decide)
      · subst hk
        have hmv : mv = .num (effectiveFrameRange repre inst).1 := by
          have := hv.symm
          simpa using this.symm
        subst hmv
        simp [metaValueTruthy, h0]
      · subst hk; exact absurd hkl (by decide)
      · subst hk; exact absurd hkl (by decide)
      · obtain ⟨hk, hv⟩ := hkm
        subst hk; exact absurd hkl (by decide)
      · obtain ⟨hk, hv⟩ := hkm
        subst hk; exact absurd hkl (by decide)
      · subst hk; exact absurd hkl (by decide)
      · obtain ⟨hk, hv⟩ := hkm
        subst hk; exact absurd hkl (by decide)

/-- Witness for C10: with `frame_start` allow-listed but an effective
frame start of `0`, the `Frame start` row is absent. -/
theorem claim10_witness :
    mdLookup (prepare_video_component_metadata
      { additional_metadata_keys := ["frame_start"] } envBareVideoStream
      { representations := none, frameStart := 0, frameEnd := 10 }
      reviewProbe "/pub/a.mp4" true) "Frame start" = none :=
  (claim10_scalar_truthiness
    { additional_metadata_keys := ["frame_start"] } envBareVideoStream
    { representations := none, frameStart := 0, frameEnd := 10 }
    reviewProbe "/pub/a.mp4" true).2 (by decide)

theorem extended_name_ne_empty (a b : String) : (a ++ "_" ++ b) ≠ "" := by
  intro h
  have hlen := congrArg String.length h
  simp [String.length_append] at hlen
  exact absurd hlen.1.2 (by decide)

theorem make_extended_some (cfg : PluginSettings) (item : ComponentItem)
    (repre : Repre) (idx : Nat) (e : String)
    (h : make_extended_component_name cfg item repre idx = some e) :
    e = item.asset_name ++ "_" ++ repre.name := by
  unfold make_extended_component_name at h
  split at h
  · exact absurd h (by simp)
  · injection h with h
    exact h.symm

theorem make_extended_truthy (cfg : PluginSettings) (item : ComponentItem)
    (repre : Repre) (idx : Nat) (e : String)
    (h : make_extended_component_name cfg item repre idx = some e) :
    optStrTruthy (some e) = true := by
  rw [make_extended_some cfg item repre idx e h]
  simp [optStrTruthy, extended_name_ne_empty]

/-- When the rename triggers, its result is the renamed binding list and
the review item carrying the extended name. -/
theorem reviewRename_pos (e : String) (midx : Option Nat)
    (bindings : List ThumbBinding) (item : ComponentItem)
    (h : optStrTruthy (some e) = true) :
    reviewRename true (some e) midx bindings item =
      (match midx with
       | some i => modifyAt bindings i (renameBinding e)
       | none => bindings,
       { item with asset_name := e }) := by
  unfold reviewRename
  rw [if_pos (by simp [h])]
  rfl

theorem modifyAt_getElem_self {α : Type} (l : List α) (i : Nat)
    (f : α → α) : (modifyAt l i f)[i]? = (l[i]?).map f := by
  induction l generalizing i with
  | nil => simp [modifyAt]
  | cons x xs ih =>
    cases i with
    | zero => simp [modifyAt]
    | succ n => simpa [modifyAt] using ih n

theorem create_src_asset_name (cfg : PluginSettings) (env : Env)
    (inst : PublishInstance) (repre : Repre) (ci : ComponentItem)
    (loc : String) :
    (create_src_component cfg env inst repre ci loc).asset_name =
      ci.asset_name := rfl

theorem buildReviewItem_asset_name (cfg : PluginSettings) (env : Env)
    (inst : PublishInstance) (repre : Repre) (it : ComponentItem) :
    (buildReviewItem cfg env inst repre it).asset_name = it.asset_name := by
  unfold buildReviewItem
  cases h : is_repre_video env repre <;> simp [h]

theorem reviewTail_asset (cfg : PluginSettings) (env : Env)
    (inst : PublishInstance) (repre : Repre) (item : ComponentItem) :
    ∀ en ∈ reviewTailEntries cfg env inst repre item,
      ∃ c, en = Entry.val c ∧ c.asset_name = item.asset_name := by
  intro en hen
  unfold reviewTailEntries at hen
  rw [List.mem_append, List.mem_append] at hen
  rcases hen with (h | h) | h
  · split at h
    · simp only [List.mem_singleton] at h
      exact ⟨_, h, create_src_asset_name cfg env inst repre item
        unmanaged_location_name⟩
    · exact absurd h (by simp)
  · simp only [List.mem_singleton] at h
    exact ⟨item, h, rfl⟩
  · split at h
    · simp only [List.mem_singleton] at h
      exact ⟨_, h, rfl⟩
    · exact absurd h (by simp)

/-- C7: whenever the extended-name renaming triggers for a review (more
than one surviving reviewable, so `multipleReviewable` is true, and a
non-null extended name), every entry this review iteration appends — the
matched thumbnail item copy, that thumbnail's `_src` shadow copy, the
review `_src` shadow, the review item itself, and the optional origin-name
copy — carries the extended name as its asset name in the final output
(all of them are appended by value, so later steps cannot change them). -/
theorem claim7_rename_propagates (cfg : PluginSettings) (env : Env)
    (inst : PublishInstance) (base : ComponentItem)
    (hasMovie multiSynced : Bool) (st : ReviewState) (index : Nat)
    (repre : Repre) (e : String)
    (hvid : is_repre_video env repre = true ∨ hasMovie = false)
    (hext : make_extended_component_name cfg base repre index = some e) :
    ∀ en ∈ (reviewStep cfg env inst base hasMovie true multiSynced st
        (index, repre)).entries.drop st.entries.length,
      ∃ c, en = Entry.val c ∧ c.asset_name = e := by
  have hskip : (!(is_repre_video env (index, repre).2) && hasMovie) = false := by
    rcases hvid with h | h <;> simp [h]
  rw [reviewStep_go cfg env inst base hasMovie true multiSynced st
    (index, repre) hskip, reviewStepCore_entries]
  simp only [hext, reviewRename_pos e _ _ _
    (make_extended_truthy cfg base repre index e hext)]
  rw [List.append_assoc, List.drop_left]
  intro en hen
  rw [List.mem_append] at hen
  rcases hen with hA | hB
  · -- thumbnail copies, read from the renamed bindings
    cases hmi : matchingThumbnailIdx (index, repre).2 st.bindings multiSynced
      with
    | none => simp [thumbCopyEntries, hmi] at hA
    | some i =>
      simp only [thumbCopyEntries, hmi] at hA
      rw [modifyAt_getElem_self] at hA
      cases hbi : st.bindings[i]? with
      | none => simp [hbi] at hA
      | some b =>
        rw [hbi] at hA
        simp only [Option.map_some'] at hA
        rw [List.mem_append] at hA
        rcases hA with h | h
        · simp only [List.mem_singleton] at h
          exact ⟨_, h, rfl⟩
        · cases hsrc : b.src_component with
          | none => simp [renameBinding, hsrc] at h
          | some s =>
            simp only [renameBinding, hsrc, Option.map_some',
              List.mem_singleton] at h
            exact ⟨_, h, rfl⟩
  · obtain ⟨c, hc, hca⟩ := reviewTail_asset cfg env inst (index, repre).2 _
      en hB
    refine ⟨c, hc, ?_⟩
    rw [hca, buildReviewItem_asset_name]

/-- Witness for C7 at a concrete review iteration: the review item appended
for the second review of the two-review scenario carries the extended
asset name. -/
theorem claim7_witness :
    ∃ c,
      ((reviewStep cfgNoKeep envProbeFail instTwoReviews
          (mkBaseComponentItem cfgNoKeep envProbeFail instTwoReviews 1)
          false true false ⟨[], [], none⟩ (0, reviewO2)).entries.drop
        0).getD 0 (Entry.thumbSrcRef 0) = Entry.val c ∧
      c.asset_name = "prod_r2" := by
  have hmem : ((reviewStep cfgNoKeep envProbeFail instTwoReviews
      (mkBaseComponentItem cfgNoKeep envProbeFail instTwoReviews 1)
      false true false ⟨[], [], none⟩ (0, reviewO2)).entries.drop
        0).getD 0 (Entry.thumbSrcRef 0) ∈
      (reviewStep cfgNoKeep envProbeFail instTwoReviews
        (mkBaseComponentItem cfgNoKeep envProbeFail instTwoReviews 1)
        false true false ⟨[], [], none⟩ (0, reviewO2)).entries.drop 0 := by
    decide
  exact claim7_rename_propagates cfgNoKeep envProbeFail instTwoReviews
    (mkBaseComponentItem cfgNoKeep envProbeFail instTwoReviews 1)
    false false ⟨[], [], none⟩ 0 reviewO2 "prod_r2" (Or.inl (by decide))
    (by decide) _ hmem

theorem getElem?_append_some {α : Type} :
    ∀ (l l' : List α) (i : Nat) (a : α),
      l[i]? = some a → (l ++ l')[i]? = some a := by
  intro l
  induction l with
  | nil => intro l' i a h; exact absurd h (by simp)
  | cons x xs ih =>
    intro l' i a h
    cases i with
    | zero => simpa using h
    | succ n =>
      simp only [List.cons_append, List.getElem?_cons_succ] at h ⊢
      exact ih l' n a h

theorem getElem?_append_singleton {α : Type} (l : List α) (x : α) :
    (l ++ [x])[l.length]? = some x := by
  induction l with
  | nil => rfl
  | cons y ys ih => simp only [List.cons_append, List.length_cons,
      List.getElem?_cons_succ]; exact ih

theorem modifyAt_getElem? {α : Type} :
    ∀ (l : List α) (i j : Nat) (f : α → α),
      (modifyAt l i f)[j]? =
        if j = i then (l[j]?).map f else l[j]? := by
  intro l
  induction l with
  | nil => intro i j f; simp [modifyAt]
  | cons x xs ih =>
    intro i j f
    cases i with
    | zero =>
      cases j with
      | zero => simp [modifyAt]
      | succ m => simp [modifyAt]
    | succ n =>
      cases j with
      | zero => simp [modifyAt]
      | succ m =>
        simp only [modifyAt, List.getElem?_cons_succ]
        rw [ih n m f]
        simp [Nat.succ_inj]

/-- Per-binding path invariant: the item and any stored src component have
a resolved, non-empty path. -/
def bindingGood (reps : List Repre) (b : ThumbBinding) : Prop :=
  goodPath reps b.item ∧
  ∀ s, b.src_component = some s → goodPath reps s

/-- Per-entry path invariant relative to the current binding list: value
entries have a good path, aliased entries point at an existing binding
with a stored src component. -/
def entryOk (reps : List Repre) (bindings : List ThumbBinding) :
    Entry → Prop
  | .val c => goodPath reps c
  | .thumbSrcRef i =>
    ∃ b, bindings[i]? = some b ∧ ∃ s, b.src_component = some s

theorem goodPath_rename (reps : List Repre) (c : ComponentItem) (e : String)
    (h : goodPath reps c) : goodPath reps { c with asset_name := e } := by
  obtain ⟨p, h1, h2, h3⟩ := h
  exact ⟨p, h1, h2, h3⟩

theorem bindingGood_rename (reps : List Repre) (b : ThumbBinding)
    (e : String) (h : bindingGood reps b) :
    bindingGood reps (renameBinding e b) := by
  constructor
  · exact goodPath_rename reps b.item e h.1
  · intro s hs
    simp only [renameBinding, Option.map_eq_some'] at hs
    obtain ⟨s0, hs0, hmap⟩ := hs
    rw [← hmap]
    exact goodPath_rename reps s0 e (h.2 s0 hs0)

theorem modifyAt_forall {α : Type} (P : α → Prop) :
    ∀ (l : List α) (i : Nat) (f : α → α),
      (∀ b ∈ l, P b) → (∀ b, P b → P (f b)) →
      ∀ b ∈ modifyAt l i f, P b := by
  intro l
  induction l with
  | nil => intro i f _ _ b hb; exact absurd hb (by simp [modifyAt])
  | cons x xs ih =>
    intro i f h hf b hb
    cases i with
    | zero =>
      simp only [modifyAt, List.mem_cons] at hb
      rcases hb with hb | hb
      · subst hb; exact hf x (h x (by simp))
      · exact h b (by simp [hb])
    | succ n =>
      simp only [modifyAt, List.mem_cons] at hb
      rcases hb with hb | hb
      · subst hb; exact h b (by simp)
      · exact ih n f (fun y hy => h y (by simp [hy])) hf b hb

theorem entryOk_modifyAt_rename (reps : List Repre)
    (bindings : List ThumbBinding) (i : Nat) (e : String) (en : Entry)
    (h : entryOk reps bindings en) :
    entryOk reps (modifyAt bindings i (renameBinding e)) en := by
  cases en with
  | val c => exact h
  | thumbSrcRef j =>
    obtain ⟨b, hb, s, hs⟩ := h
    rw [entryOk, modifyAt_getElem?]
    by_cases hj : j = i
    · subst hj
      rw [if_pos rfl, hb]
      exact ⟨renameBinding e b, rfl,
        { s with asset_name := e }, by simp [renameBinding, hs]⟩
    · rw [if_neg hj]
      exact ⟨b, hb, s, hs⟩

theorem entryOk_append_binding (reps : List Repre)
    (bindings : List ThumbBinding) (nb : ThumbBinding) (en : Entry)
    (h : entryOk reps bindings en) :
    entryOk reps (bindings ++ [nb]) en := by
  cases en with
  | val c => exact h
  | thumbSrcRef j =>
    obtain ⟨b, hb, s, hs⟩ := h
    exact ⟨b, getElem?_append_some bindings [nb] j b hb, s, hs⟩

/-- Classification invariant: every bucket member comes from the input
list, and review members have a truthy resolved path. -/
def CInv (reps : List Repre) (acc : Classified) : Prop :=
  (∀ r ∈ acc.thumbnails, r ∈ reps) ∧
  (∀ r ∈ acc.reviews, r ∈ reps ∧ optStrTruthy r.path = true) ∧
  (∀ r ∈ acc.others, r ∈ reps)

theorem classifyStep_inv (env : Env) (reps : List Repre) (acc : Classified)
    (repre : Repre) (h : CInv reps acc) (hr : repre ∈ reps) :
    CInv reps (classifyStep env acc repre) := by
  unfold classifyStep
  split
  · exact h
  · split
    · refine ⟨?_, h.2.1, h.2.2⟩
      intro r hrm
      simp only [List.mem_append, List.mem_singleton] at hrm
      rcases hrm with hrm | hrm
      · exact h.1 r hrm
      · subst hrm; exact hr
    · split
      · rename_i hcond
        have hpath : optStrTruthy repre.path = true := by
          simp only [Bool.and_eq_true] at hcond
          exact hcond.2
        refine ⟨h.1, ?_, h.2.2⟩
        intro r hrm
        simp only [List.mem_append, List.mem_singleton] at hrm
        rcases hrm with hrm | hrm
        · exact h.2.1 r hrm
        · subst hrm; exact ⟨hr, hpath⟩
      · refine ⟨h.1, h.2.1, ?_⟩
        intro r hrm
        simp only [List.mem_append, List.mem_singleton] at hrm
        rcases hrm with hrm | hrm
        · exact h.2.2 r hrm
        · subst hrm; exact hr

theorem classifyFold_inv (env : Env) (reps : List Repre) :
    ∀ (l : List Repre) (acc : Classified), CInv reps acc →
      (∀ r ∈ l, r ∈ reps) →
      CInv reps (l.foldl (classifyStep env) acc) := by
  intro l
  induction l with
  | nil => intro acc h _; exact h
  | cons x xs ih =>
    intro acc h hl
    simp only [List.foldl_cons]
    exact ih (classifyStep env acc x)
      (classifyStep_inv env reps acc x h (hl x (by simp)))
      (fun r hr => hl r (by simp [hr]))

theorem classify_inv (env : Env) (reps : List Repre) :
    CInv reps (classify env reps) :=
  classifyFold_inv env reps reps ⟨[], [], [], false⟩
    ⟨fun _ hr => absurd hr (by simp), fun _ hr => absurd hr (by simp),
     fun _ hr => absurd hr (by simp)⟩ (fun _ hr => hr)

theorem filteredReviews_sub (env : Env) (reps : List Repre) :
    ∀ r ∈ filteredReviews env reps, r ∈ (classify env reps).reviews :=
  fun _ hr => (List.mem_filter.mp hr).1

theorem create_src_component_path (cfg : PluginSettings) (env : Env)
    (inst : PublishInstance) (repre : Repre) (ci : ComponentItem)
    (loc : String) :
    (create_src_component cfg env inst repre ci loc).component_path =
      ci.component_path := rfl

theorem buildReviewItem_path (cfg : PluginSettings) (env : Env)
    (inst : PublishInstance) (repre : Repre) (it : ComponentItem) :
    (buildReviewItem cfg env inst repre it).component_path = repre.path := by
  unfold buildReviewItem
  cases h : is_repre_video env repre <;> simp [h]

theorem reviewTail_path (cfg : PluginSettings) (env : Env)
    (inst : PublishInstance) (repre : Repre) (item : ComponentItem) :
    ∀ en ∈ reviewTailEntries cfg env inst repre item,
      ∃ c, en = Entry.val c ∧ c.component_path = item.component_path := by
  intro en hen
  unfold reviewTailEntries at hen
  rw [List.mem_append, List.mem_append] at hen
  rcases hen with (h | h) | h
  · split at h
    · simp only [List.mem_singleton] at h
      exact ⟨_, h, create_src_component_path cfg env inst repre item
        unmanaged_location_name⟩
    · exact absurd h (by simp)
  · simp only [List.mem_singleton] at h
    exact ⟨item, h, rfl⟩
  · split at h
    · simp only [List.mem_singleton] at h
      exact ⟨_, h, rfl⟩
    · exact absurd h (by simp)

/-- Thumbnail-phase invariant: bindings and entries have good paths, and
the last thumbnail item (when set) has a good path. -/
def TPInv (reps : List Repre) (st : ThumbPhase) : Prop :=
  (∀ b ∈ st.bindings, bindingGood reps b) ∧
  (∀ e ∈ st.entries, entryOk reps st.bindings e) ∧
  (∀ t, st.thumbnail_item = some t → goodPath reps t)

theorem thumbStep_inv (cfg : PluginSettings) (env : Env)
    (inst : PublishInstance) (base : ComponentItem) (rne : Bool)
    (reps : List Repre) (st : ThumbPhase) (repre : Repre)
    (h : TPInv reps st) (hr : repre ∈ reps) :
    TPInv reps (thumbStep cfg env inst base rne st repre) := by
  rcases hp : repre.path with _ | p
  · simpa only [thumbStep, hp] using h
  · simp only [thumbStep, hp]
    split
    · exact h
    · rename_i hpe
      have hpne : p ≠ "" := by simpa using hpe
      have hitem : goodPath reps (mkThumbnailItem env base rne repre p) :=
        ⟨p, rfl, hpne, List.mem_append.mpr
          (Or.inl (List.mem_filterMap.mpr ⟨repre, hr, hp⟩))⟩
      have hsrc : goodPath reps (create_src_component cfg env inst repre
          (mkThumbnailItem env base rne repre p) unmanaged_location_name) :=
        ⟨p, rfl, hpne, List.mem_append.mpr
          (Or.inl (List.mem_filterMap.mpr ⟨repre, hr, hp⟩))⟩
      split
      · refine ⟨?_, ?_, ?_⟩
        · intro b hb
          simp only [List.mem_append, List.mem_singleton] at hb
          rcases hb with hb | hb
          · exact h.1 b hb
          · subst hb
            refine ⟨hitem, ?_⟩
            intro s hs
            injection hs with hs
            rw [← hs]
            exact hsrc
        · intro e he
          simp only [List.mem_append, List.mem_singleton] at he
          rcases he with he | he
          · exact entryOk_append_binding reps st.bindings _ e (h.2.1 e he)
          · subst he
            exact ⟨_, getElem?_append_singleton st.bindings _, _, rfl⟩
        · intro t ht
          injection ht with ht
          rw [← ht]
          exact hitem
      · refine ⟨?_, ?_, ?_⟩
        · intro b hb
          simp only [List.mem_append, List.mem_singleton] at hb
          rcases hb with hb | hb
          · exact h.1 b hb
          · subst hb
            exact ⟨hitem, fun s hs => absurd hs (by simp)⟩
        · intro e he
          exact entryOk_append_binding reps st.bindings _ e (h.2.1 e he)
        · intro t ht
          injection ht with ht
          rw [← ht]
          exact hitem

theorem thumbnailPhase_inv (cfg : PluginSettings) (env : Env)
    (inst : PublishInstance) (base : ComponentItem) (rne : Bool)
    (reps thumbs : List Repre) (hthumbs : ∀ r ∈ thumbs, r ∈ reps) :
    TPInv reps (thumbnailPhase cfg env inst base rne thumbs) := by
  unfold thumbnailPhase
  have hgen : ∀ (l : List Repre) (st : ThumbPhase), TPInv reps st →
      (∀ r ∈ l, r ∈ reps) →
      TPInv reps (l.foldl (thumbStep cfg env inst base rne) st) := by
    intro l
    induction l with
    | nil => intro st h _; exact h
    | cons x xs ih =>
      intro st h hl
      simp only [List.foldl_cons]
      exact ih (thumbStep cfg env inst base rne st x)
        (thumbStep_inv cfg env inst base rne reps st x h (hl x (by simp)))
        (fun r hrm => hl r (by simp [hrm]))
  exact hgen thumbs ⟨[], [], none⟩
    ⟨fun _ hb => absurd hb (by simp), fun _ he => absurd he (by simp),
     fun t ht => absurd ht (by simp)⟩ hthumbs

/-- Review-loop invariant: bindings and entries keep good paths. -/
def RSInv (reps : List Repre) (st : ReviewState) : Prop :=
  (∀ b ∈ st.bindings, bindingGood reps b) ∧
  (∀ e ∈ st.entries, entryOk reps st.bindings e)

theorem reviewStepCore_inv (cfg : PluginSettings) (env : Env)
    (inst : PublishInstance) (base : ComponentItem) (mr ms : Bool)
    (reps : List Repre) (st : ReviewState) (index : Nat) (repre : Repre)
    (h : RSInv reps st) (hr : repre ∈ reps)
    (hpath : optStrTruthy repre.path = true) :
    RSInv reps (reviewStepCore cfg env inst base mr ms st index repre) := by
  obtain ⟨p, hp, hpne⟩ : ∃ p, repre.path = some p ∧ p ≠ "" := by
    cases hq : repre.path with
    | none => rw [hq] at hpath; exact absurd hpath (by simp [optStrTruthy])
    | some q =>
      rw [hq] at hpath
      exact ⟨q, rfl, by simpa [optStrTruthy] using hpath⟩
  have hbind1 : ∀ b ∈ (reviewRename mr
      (make_extended_component_name cfg base repre index)
      (matchingThumbnailIdx repre st.bindings ms) st.bindings base).1,
      bindingGood reps b := by
    rcases reviewRename_fst_cases mr
      (make_extended_component_name cfg base repre index)
      (matchingThumbnailIdx repre st.bindings ms) st.bindings base with
      hc | ⟨i, e, hc⟩
    · rw [hc]; exact h.1
    · rw [hc]
      exact modifyAt_forall _ st.bindings i _ h.1
        (fun b hb => bindingGood_rename reps b e hb)
  constructor
  · rw [reviewStepCore_bindings]
    exact hbind1
  · rw [reviewStepCore_entries, reviewStepCore_bindings]
    intro en hen
    rw [List.mem_append, List.mem_append] at hen
    rcases hen with (he | hA) | hB
    · rcases reviewRename_fst_cases mr
        (make_extended_component_name cfg base repre index)
        (matchingThumbnailIdx repre st.bindings ms) st.bindings base with
        hc | ⟨i, e, hc⟩
      · rw [hc]; exact h.2 en he
      · rw [hc]
        exact entryOk_modifyAt_rename reps st.bindings i e en (h.2 en he)
    · cases hmidx : matchingThumbnailIdx repre st.bindings ms with
      | none => simp [thumbCopyEntries, hmidx] at hA
      | some i =>
        simp only [thumbCopyEntries, hmidx] at hA
        cases hbi : (reviewRename mr
            (make_extended_component_name cfg base repre index)
            (matchingThumbnailIdx repre st.bindings ms) st.bindings
            base).1[i]? with
        | none => rw [hmidx] at hbi; simp [hbi] at hA
        | some b =>
          rw [hmidx] at hbi
          simp only [hbi] at hA
          have hbgood : bindingGood reps b := by
            apply hbind1
            rw [← hmidx] at hbi
            exact List.getElem?_mem hbi
          rw [List.mem_append] at hA
          rcases hA with hA | hA
          · simp only [List.mem_singleton] at hA
            subst hA
            exact hbgood.1
          · cases hbs : b.src_component with
            | none => simp [hbs] at hA
            | some s =>
              simp only [hbs, List.mem_singleton] at hA
              subst hA
              exact hbgood.2 s hbs
    · obtain ⟨c, hc, hcp⟩ := reviewTail_path cfg env inst repre _ en hB
      subst hc
      exact ⟨p, by rw [hcp, buildReviewItem_path, hp], hpne,
        List.mem_append.mpr
          (Or.inl (List.mem_filterMap.mpr ⟨repre, hr, hp⟩))⟩

theorem reviewStep_inv (cfg : PluginSettings) (env : Env)
    (inst : PublishInstance) (base : ComponentItem) (hm mr ms : Bool)
    (reps : List Repre) (st : ReviewState) (ir : Nat × Repre)
    (h : RSInv reps st) (hr : ir.2 ∈ reps)
    (hpath : optStrTruthy ir.2.path = true) :
    RSInv reps (reviewStep cfg env inst base hm mr ms st ir) := by
  cases hskip : (!(is_repre_video env ir.2) && hm) with
  | true =>
    rw [reviewStep_skip cfg env inst base hm mr ms st ir hskip]
    exact h
  | false =>
    rw [reviewStep_go cfg env inst base hm mr ms st ir hskip]
    exact reviewStepCore_inv cfg env inst base mr ms reps st ir.1 ir.2 h hr
      hpath

theorem reviewFold_inv (cfg : PluginSettings) (env : Env)
    (inst : PublishInstance) (base : ComponentItem) (hm mr ms : Bool)
    (reps : List Repre) :
    ∀ (irs : List (Nat × Repre)) (st : ReviewState), RSInv reps st →
      (∀ pr ∈ irs, pr.2 ∈ reps ∧ optStrTruthy pr.2.path = true) →
      RSInv reps
        (irs.foldl (reviewStep cfg env inst base hm mr ms) st) := by
  intro irs
  induction irs with
  | nil => intro st h _; exact h
  | cons x xs ih =>
    intro st h hl
    simp only [List.foldl_cons]
    exact ih (reviewStep cfg env inst base hm mr ms st x)
      (reviewStep_inv cfg env inst base hm mr ms reps st x h
        (hl x (by simp)).1 (hl x (by simp)).2)
      (fun pr hpr => hl pr (by simp [hpr]))

theorem withIdx_mem {α : Type} :
    ∀ (l : List α) (k : Nat) (pr : Nat × α), pr ∈ withIdx k l → pr.2 ∈ l := by
  intro l
  induction l with
  | nil => intro k pr h; exact absurd h (by simp [withIdx])
  | cons x xs ih =>
    intro k pr h
    simp only [withIdx, List.mem_cons] at h
    rcases h with h | h
    · subst h; simp
    · simp [ih (k + 1) pr h]

theorem otherStep_cases (cfg : PluginSettings) (env : Env)
    (inst : PublishInstance) (base : ComponentItem) (mrev : Bool)
    (extOpt : Option String) (entries : List Entry) (repre : Repre) :
    otherStep cfg env inst base mrev extOpt entries repre = entries ∨
    ∃ item p, otherStep cfg env inst base mrev extOpt entries repre =
        entries ++ [Entry.val item] ∧
      item.component_path = some p ∧ p ≠ "" ∧
      repre.publishedPath = some p ∧ compName item = repre.name := by
  rcases hp : repre.publishedPath with _ | p
  · exact Or.inl (by simp [otherStep, hp])
  · simp only [otherStep, hp]
    by_cases hpe : (p == "") = true
    · rw [if_pos hpe]
      exact Or.inl rfl
    · rw [if_neg hpe]
      exact Or.inr ⟨_, p, rfl, rfl, by simpa using hpe, rfl, rfl⟩

theorem othersFold_entryOk (cfg : PluginSettings) (env : Env)
    (inst : PublishInstance) (base : ComponentItem) (mrev : Bool)
    (extOpt : Option String) (reps : List Repre)
    (bindings : List ThumbBinding) :
    ∀ (rs : List Repre) (entries : List Entry),
      (∀ e ∈ entries, entryOk reps bindings e) →
      (∀ r ∈ rs, r ∈ reps) →
      ∀ e ∈ rs.foldl (otherStep cfg env inst base mrev extOpt) entries,
        entryOk reps bindings e := by
  intro rs
  induction rs with
  | nil => intro entries h _ e he; exact h e he
  | cons x xs ih =>
    intro entries h hl e he
    simp only [List.foldl_cons] at he
    refine ih (otherStep cfg env inst base mrev extOpt entries x) ?_
      (fun r hrm => hl r (by simp [hrm])) e he
    intro e2 he2
    rcases otherStep_cases cfg env inst base mrev extOpt entries x with
      hc | ⟨item, p, hc, hip, hpne, hpp, -⟩
    · rw [hc] at he2
      exact h e2 he2
    · rw [hc] at he2
      simp only [List.mem_append, List.mem_singleton] at he2
      rcases he2 with he2 | he2
      · exact h e2 he2
      · subst he2
        exact ⟨p, hip, hpne, List.mem_append.mpr
          (Or.inr (List.mem_filterMap.mpr ⟨x, hl x (by simp), hpp⟩))⟩

theorem assemble_goodPath (cfg : PluginSettings) (env : Env)
    (inst : PublishInstance) (reps : List Repre) (v : Int) :
    ∀ c ∈ assemble cfg env inst reps v, goodPath reps c := by
  have hcls := classify_inv env reps
  have hfr := filteredReviews_sub env reps
  unfold assemble assembleParts
  intro c hc
  simp only [List.mem_map] at hc
  obtain ⟨e, he, hce⟩ := hc
  generalize hBase : mkBaseComponentItem cfg env inst v = base at he hce
  generalize hCls : classify env reps = cls at he hce hcls hfr
  generalize hTP : thumbnailPhase cfg env inst base (!cls.reviews.isEmpty)
    cls.thumbnails = tp at he hce
  generalize hRevs : filteredReviews env reps = revs at he hce hfr
  generalize hRST : (withIdx 0 revs).foldl
    (reviewStep cfg env inst base cls.hasMovieReview
      (decide (revs.length > 1))
      (decide ((synced_output_names cls.reviews cls.thumbnails).length > 1)))
    ⟨tp.bindings, tp.entries, none⟩ = rst at he hce
  have htp : TPInv reps tp := by
    rw [← hTP]
    exact thumbnailPhase_inv cfg env inst base (!cls.reviews.isEmpty) reps
      cls.thumbnails hcls.1
  have hrst : RSInv reps rst := by
    rw [← hRST]
    refine reviewFold_inv cfg env inst base cls.hasMovieReview
      (decide (revs.length > 1))
      (decide ((synced_output_names cls.reviews cls.thumbnails).length > 1))
      reps (withIdx 0 revs) ⟨tp.bindings, tp.entries, none⟩
      ⟨htp.1, htp.2.1⟩ ?_
    intro pr hpr
    exact hcls.2.1 pr.2 (hfr pr.2 (withIdx_mem revs 0 pr hpr))
  have hentries1 : ∀ e2 ∈ rst.entries ++
      (if revs.isEmpty then
        match tp.thumbnail_item with
        | some t => [Entry.val t]
        | none => []
      else []), entryOk reps rst.bindings e2 := by
    intro e2 he2
    rw [List.mem_append] at he2
    rcases he2 with he2 | he2
    · exact hrst.2 e2 he2
    · split at he2
      · cases ht : tp.thumbnail_item with
        | none => rw [ht] at he2; exact absurd he2 (by simp)
        | some t =>
          rw [ht] at he2
          simp only [List.mem_singleton] at he2
          subst he2
          exact htp.2.2 t ht
      · exact absurd he2 (by simp)
  have hall := othersFold_entryOk cfg env inst base
    (decide (revs.length > 1)) rst.extended reps rst.bindings cls.others _
    hentries1 hcls.2.2 e he
  rw [← hce]
  cases e with
  | val c0 => exact hall
  | thumbSrcRef i =>
    obtain ⟨b, hb, s, hs⟩ := hall
    simp only [resolveEntry, hb, hs]
    exact (hrst.1 b (List.getElem?_mem hb)).2 s hs

/-- C9: every assembled component whose name does not end in `_src` (in
fact, every assembled component) has a non-null, non-empty
`component_path`, and that path is one of the resolved published paths of
the instance representations (`goodPath` unfolds to precisely this). -/
theorem claim9_nonsrc_component_paths (cfg : PluginSettings) (env : Env)
    (inst : PublishInstance) (reps : List Repre)
    (l : List ComponentItem) (c : ComponentItem)
    (hr : inst.representations = some reps)
    (hp : process cfg env inst = .ok l) (hc : c ∈ l)
    (_hns : strEndsWith (compName c) "_src" = false) :
    ∃ p, c.component_path = some p ∧ p ≠ "" ∧ p ∈ resolvedPathsOf reps := by
  unfold process at hp
  rw [hr] at hp
  cases reps with
  | nil =>
    injection hp with hp
    subst hp
    exact absurd hc (by simp)
  | cons r rs =>
    cases hv : inst.version with
    | none => rw [hv] at hp; exact absurd hp (by simp)
    | some v =>
      rw [hv] at hp
      injection hp with hp
      subst hp
      exact assemble_goodPath cfg env inst (r :: rs) v c hc

/-- Witness for C9: the `thumbnail` item of the single-review scenario has
the thumbnail representation's resolved path. -/
theorem claim9_witness :
    ∃ p, ((okList (process cfgDefault envProbeFail
        instSingleReview)).getD 1 dummyComponent).component_path = some p ∧
      p ≠ "" ∧ p ∈ resolvedPathsOf [thumbMain, reviewMain] :=
  claim9_nonsrc_component_paths cfgDefault envProbeFail instSingleReview
    [thumbMain, reviewMain] (okList (process cfgDefault envProbeFail
      instSingleReview))
    ((okList (process cfgDefault envProbeFail instSingleReview)).getD 1
      dummyComponent)
    rfl (by decide) (by decide) (by decide)

/-- C1, counterexample: in the single-review scenario the single thumbnail
(no delete tag, resolvable path) yields TWO `thumbnail_src` entries in the
assembled list — one from the thumbnail loop and one more for the review
it is matched to — not the claimed exactly one. -/
theorem claim1_counterexample :
    countByName (okList (process cfgDefault envProbeFail instSingleReview))
      "thumbnail_src" = 2 := by
  decide

theorem mdHasReviewPayload_mdSet_nonreview
    (md : List (String × MetaValue)) (pl : FtrMeta)
    (h : ∀ rm, pl ≠ .review rm) :
    mdHasReviewPayload (mdSet md "ftr_meta" (.payload pl)) = false := by
  unfold mdHasReviewPayload
  rw [mdLookup_mdSet_self]
  cases pl with
  | review rm => exact absurd rfl (h rm)
  | nonReview m => rfl
  | image m => rfl

/-- The main video branch with `is_review = False` stores a non-review
payload. -/
theorem videoMetadataMain_false_shape (cfg : PluginSettings) (env : Env)
    (inst : PublishInstance) (repre : Repre)
    (md0 : List (String × MetaValue)) (vs : List FFStream) :
    ∃ nr md1, videoMetadataMain cfg env inst repre false md0 vs =
      mdSet md1 "ftr_meta" (.payload (.nonReview nr)) :=
  ⟨_, _, rfl⟩

/-- Non-review metadata never carries a review-type payload. -/
theorem prepare_component_metadata_no_review (cfg : PluginSettings)
    (env : Env) (inst : PublishInstance) (repre : Repre) (path : String) :
    mdHasReviewPayload
      (prepare_component_metadata cfg env inst repre path false) = false := by
  unfold prepare_component_metadata
  split
  · by_cases hE : ((((env.ffprobeStreams path).getD []).filter
        (fun s => s.codec_type == "video")).isEmpty &&
        !(pathSplitextExt path == ".exr")) = true
    · rw [prepare_video_early cfg env inst repre path false hE]
      unfold mdHasReviewPayload
      rw [versionEntries_lookup_ne cfg env _ (by decide) (by decide)]
    · rw [prepare_video_main cfg env inst repre path false
        (by simpa using hE)]
      obtain ⟨nr, md1, hshape⟩ := videoMetadataMain_false_shape cfg env inst
        repre (versionMetadataEntries cfg env) _
      rw [hshape]
      exact mdHasReviewPayload_mdSet_nonreview md1 _ (by simp)
  · split
    · unfold prepare_image_component_metadata imageMetaOf
      split
      · rfl
      · rfl
    · rfl

/-- The src component of any item is named after it with the `_src`
suffix. -/
theorem create_src_compName (cfg : PluginSettings) (env : Env)
    (inst : PublishInstance) (repre : Repre) (ci : ComponentItem)
    (loc : String) :
    compName (create_src_component cfg env inst repre ci loc) =
      compName ci ++ "_src" := by
  unfold create_src_component compName
  cases ci.component_data <;> rfl

/-- The src component of any item carries non-review metadata. -/
theorem create_src_no_review (cfg : PluginSettings) (env : Env)
    (inst : PublishInstance) (repre : Repre) (ci : ComponentItem)
    (loc : String) :
    hasReviewPayload (create_src_component cfg env inst repre ci loc)
      = false := by
  unfold hasReviewPayload create_src_component compMetadata
  cases ci.component_data <;>
    exact prepare_component_metadata_no_review cfg env inst repre _

theorem buildReviewItem_compName (cfg : PluginSettings) (env : Env)
    (inst : PublishInstance) (repre : Repre) (it : ComponentItem) :
    compName (buildReviewItem cfg env inst repre it) =
      (if is_repre_video env repre then "ftrackreview-mp4"
       else "ftrackreview-image") := by
  unfold buildReviewItem
  cases h : is_repre_video env repre <;> simp [h, compName]

theorem matchingThumbnailIdx_singleton (review : Repre) (b : ThumbBinding)
    (multi : Bool) :
    matchingThumbnailIdx review [b] multi = some 0 := by
  cases multi with
  | false => rfl
  | true =>
    unfold matchingThumbnailIdx
    cases hf : findMatchIdx review [b] 0 with
    | none => simp
    | some i =>
      obtain ⟨hk, t, hget, -⟩ := findMatchIdx_getElem review [b] 0 i hf
      have : i = 0 := by
        by_contra hne
        have h1 : 1 ≤ i := Nat.one_le_iff_ne_zero.mpr hne
        simp only [Nat.sub_zero] at hget
        rw [List.getElem?_eq_none (by simpa using h1)] at hget
        exact absurd hget (by simp)
      subst this
      simp

theorem withIdx_length {α : Type} :
    ∀ (l : List α) (k : Nat), (withIdx k l).length = l.length := by
  intro l
  induction l with
  | nil => intro k; rfl
  | cons x xs ih => intro k; simp [withIdx, ih]

/-- The single-thumbnail binding invariant of the review loop: one binding
whose item is the `thumbnail` component and whose stored src component is
the `thumbnail_src` shadow with non-review metadata. -/
def C1B (b : ThumbBinding) : Prop :=
  compName b.item = "thumbnail" ∧
  ∃ s, b.src_component = some s ∧ compName s = "thumbnail_src" ∧
    hasReviewPayload s = false

/-- Number of `thumbnail_src`-named entries, resolved against a binding
list. -/
def tsCount (B : List ThumbBinding) (es : List Entry) : Nat :=
  (es.filter
    (fun e => compName (resolveEntry B e) == "thumbnail_src")).length

/-- Entries named `thumbnail_src` carry non-review metadata. -/
def tsOk (B : List ThumbBinding) (e : Entry) : Prop :=
  compName (resolveEntry B e) = "thumbnail_src" →
    hasReviewPayload (resolveEntry B e) = false

theorem tsCount_append (B : List ThumbBinding) (es fs : List Entry) :
    tsCount B (es ++ fs) = tsCount B es + tsCount B fs := by
  unfold tsCount
  rw [List.filter_append, List.length_append]

theorem C1B_rename (b : ThumbBinding) (e : String) (h : C1B b) :
    C1B (renameBinding e b) := by
  obtain ⟨hn, s, hs, hsn, hsp⟩ := h
  refine ⟨hn, { s with asset_name := e }, ?_, hsn, hsp⟩
  simp [renameBinding, hs]

theorem reviewTail_compName_noorig (cfg : PluginSettings) (env : Env)
    (inst : PublishInstance) (repre : Repre) (item : ComponentItem)
    (horig : cfg.upload_reviewable_with_origin_name = false) :
    ∀ en ∈ reviewTailEntries cfg env inst repre item,
      (∃ c, en = Entry.val c ∧
        (compName c = compName item ∨
         compName c = compName item ++ "_src") ∧
        hasReviewPayload c = false) ∨
      en = Entry.val item := by
  intro en hen
  unfold reviewTailEntries at hen
  rw [List.mem_append, List.mem_append] at hen
  rcases hen with (h | h) | h
  · split at h
    · simp only [List.mem_singleton] at h
      exact Or.inl ⟨_, h, Or.inr (create_src_compName cfg env inst repre
        item unmanaged_location_name),
        create_src_no_review cfg env inst repre item
          unmanaged_location_name⟩
    · exact absurd h (by simp)
  · simp only [List.mem_singleton] at h
    exact Or.inr h
  · rw [horig] at h
    simp at h

theorem tsCount_val (B : List ThumbBinding) (c : ComponentItem) :
    tsCount B [Entry.val c] =
      (if compName c = "thumbnail_src" then 1 else 0) := by
  unfold tsCount
  by_cases h : compName c = "thumbnail_src"
  · rw [if_pos h]
    simp [List.filter, resolveEntry, h]
  · rw [if_neg h]
    simp only [List.filter, resolveEntry]
    rw [show (compName c == "thumbnail_src") = false from by simp [h]]
    rfl


/-- The component name of a thumbnail item, which depends on whether any
review representation exists (`process` lines 228-233). -/
def thumbName (rne : Bool) : String :=
  if rne then "thumbnail" else "ftrackreview-image"

/-- The binding invariant established by the thumbnail loop, for either
naming mode: the item carries the mode's component name and the stored src
component carries its `_src` variant with non-review metadata. -/
def C1Bg (rne : Bool) (b : ThumbBinding) : Prop :=
  compName b.item = thumbName rne ∧
  ∃ s, b.src_component = some s ∧ compName s = thumbName rne ++ "_src" ∧
    hasReviewPayload s = false

theorem C1Bg_true (b : ThumbBinding) (h : C1Bg true b) : C1B b := h

/-- Number of entries carrying a given component name, resolved against a
binding list. -/
def cnt (B : List ThumbBinding) (nm : String) (es : List Entry) : Nat :=
  (es.filter (fun e => compName (resolveEntry B e) == nm)).length

/-- Entries carrying a given component name have non-review metadata. -/
def entOk (B : List ThumbBinding) (nm : String) (e : Entry) : Prop :=
  compName (resolveEntry B e) = nm →
    hasReviewPayload (resolveEntry B e) = false

theorem cnt_append (B : List ThumbBinding) (nm : String)
    (es fs : List Entry) :
    cnt B nm (es ++ fs) = cnt B nm es + cnt B nm fs := by
  unfold cnt
  rw [List.filter_append, List.length_append]

theorem cnt_val (B : List ThumbBinding) (nm : String) (c : ComponentItem) :
    cnt B nm [Entry.val c] = (if compName c = nm then 1 else 0) := by
  unfold cnt
  by_cases h : compName c = nm
  · rw [if_pos h]
    simp [List.filter, resolveEntry, h]
  · rw [if_neg h]
    simp only [List.filter, resolveEntry]
    rw [show (compName c == nm) = false from by simp [h]]
    rfl

theorem tsCount_eq_cnt (B : List ThumbBinding) (es : List Entry) :
    tsCount B es = cnt B "thumbnail_src" es := rfl

theorem countByName_eq_cnt (B : List ThumbBinding) (nm : String)
    (es : List Entry) :
    countByName (es.map (resolveEntry B)) nm = cnt B nm es := by
  unfold countByName cnt
  rw [List.filter_map, List.length_map]
  rfl

theorem modifyAt_length {α : Type} :
    ∀ (l : List α) (i : Nat) (f : α → α),
      (modifyAt l i f).length = l.length := by
  intro l
  induction l with
  | nil => intro i f; rfl
  | cons x xs ih =>
    intro i f
    cases i with
    | zero => rfl
    | succ n =>
      simp only [modifyAt, List.length_cons]
      rw [ih n f]

/-- On a nonempty binding list the matcher always returns an in-range
index (`_get_matching_thumbnail_item` never drops a review). -/
theorem matchingThumbnailIdx_lt (review : Repre)
    (items : List ThumbBinding) (multi : Bool) (h : items ≠ []) :
    ∃ i, matchingThumbnailIdx review items multi = some i ∧
      i < items.length := by
  cases items with
  | nil => exact absurd rfl h
  | cons b bs =>
    cases multi with
    | false => exact ⟨0, rfl, Nat.succ_pos bs.length⟩
    | true =>
      cases hf : findMatchIdx review (b :: bs) 0 with
      | none =>
        refine ⟨0, ?_, Nat.succ_pos bs.length⟩
        show (match findMatchIdx review (b :: bs) 0 with
          | some i => some i
          | none => some 0) = some 0
        rw [hf]
      | some i =>
        refine ⟨i, ?_, ?_⟩
        · show (match findMatchIdx review (b :: bs) 0 with
            | some i => some i
            | none => some 0) = some i
          rw [hf]
        · obtain ⟨-, t, hget, -⟩ :=
            findMatchIdx_getElem review (b :: bs) 0 i hf
          by_contra hc
          rw [List.getElem?_eq_none (by omega)] at hget
          exact absurd hget (by simp)

/-- The aliased `_src` entries the thumbnail loop appends: one reference
per binding, at consecutive indices starting from `k`. -/
def refsFrom : Nat → Nat → List Entry
  | _, 0 => []
  | k, n + 1 => Entry.thumbSrcRef k :: refsFrom (k + 1) n

/-- Resolved against any binding list whose every src component carries
the name `nm` (with non-review metadata), a block of consecutive in-range
references contributes exactly its length to the count, and every entry
satisfies the metadata property. -/
theorem cnt_refsFrom (B : List ThumbBinding) (nm : String)
    (hB : ∀ b ∈ B, ∃ s, b.src_component = some s ∧ compName s = nm ∧
      hasReviewPayload s = false) :
    ∀ (n k : Nat), k + n ≤ B.length →
      cnt B nm (refsFrom k n) = n ∧ ∀ e ∈ refsFrom k n, entOk B nm e := by
  intro n
  induction n with
  | zero =>
    intro k _
    exact ⟨rfl, fun e he => absurd he (by simp [refsFrom])⟩
  | succ m ih =>
    intro k hk
    have hkb : k < B.length := by omega
    have hgb : B[k]? = some B[k] := List.getElem?_eq_getElem hkb
    obtain ⟨s, hs, hsn, hsp⟩ := hB B[k] (List.getElem?_mem hgb)
    have hres : resolveEntry B (Entry.thumbSrcRef k) = s := by
      simp [resolveEntry, hgb, hs]
    obtain ⟨ihc, iho⟩ := ih (k + 1) (by omega)
    constructor
    · show cnt B nm (Entry.thumbSrcRef k :: refsFrom (k + 1) m) = m + 1
      unfold cnt
      rw [List.filter_cons,
        if_pos (show (compName (resolveEntry B (Entry.thumbSrcRef k)) == nm)
          = true from by rw [hres, hsn]; simp)]
      simp only [List.length_cons]
      unfold cnt at ihc
      rw [ihc]
    · intro e he
      rcases List.mem_cons.mp he with he | he
      · subst he
        intro _
        rw [hres]
        exact hsp
      · exact iho e he

/-- The binding record one surviving thumbnail appends (`process` lines
243-262). -/
def mkThumbBinding (cfg : PluginSettings) (env : Env)
    (inst : PublishInstance) (base : ComponentItem) (rne : Bool)
    (t : Repre) (p : String) : ThumbBinding :=
  ⟨t.outputName, t, mkThumbnailItem env base rne t p,
    some (create_src_component cfg env inst t
      (mkThumbnailItem env base rne t p) unmanaged_location_name)⟩

/-- The thumbnail loop over representations that all survive (resolvable
non-empty path, no delete tag): it appends one binding per thumbnail, all
satisfying the invariant, and one aliased `_src` entry per binding at
consecutive indices; the `thumbnail_item` loop variable ends as the last
built item (or keeps its starting value on an empty list). -/
theorem thumbFold_c1 (cfg : PluginSettings) (env : Env)
    (inst : PublishInstance) (base : ComponentItem) (rne : Bool) :
    ∀ (ts : List Repre) (st : ThumbPhase),
      (∀ t ∈ ts, t.path.getD "" ≠ "" ∧
        t.tags.contains "delete" = false) →
      ∃ Bs,
        (ts.foldl (thumbStep cfg env inst base rne) st).bindings =
          st.bindings ++ Bs ∧
        Bs.length = ts.length ∧
        (∀ b ∈ Bs, C1Bg rne b) ∧
        (ts.foldl (thumbStep cfg env inst base rne) st).entries =
          st.entries ++ refsFrom st.bindings.length ts.length ∧
        ((ts.foldl (thumbStep cfg env inst base rne) st).thumbnail_item =
            st.thumbnail_item ∨
          ∃ it, (ts.foldl (thumbStep cfg env inst base rne)
              st).thumbnail_item = some it ∧ compName it = thumbName rne) := by
  intro ts
  induction ts with
  | nil =>
    intro st _
    exact ⟨[], by simp, rfl, fun b hb => absurd hb (by simp),
      by simp [refsFrom], Or.inl rfl⟩
  | cons t ts ih =>
    intro st hgood
    obtain ⟨hpath0, hdel⟩ := hgood t (by simp)
    cases hp : t.path with
    | none =>
      rw [hp] at hpath0
      exact absurd rfl hpath0
    | some p =>
      have hpne : p ≠ "" := by rw [hp] at hpath0; exact hpath0
      have hstep : thumbStep cfg env inst base rne st t =
          ⟨st.bindings ++ [mkThumbBinding cfg env inst base rne t p],
           st.entries ++ [Entry.thumbSrcRef st.bindings.length],
           some (mkThumbnailItem env base rne t p)⟩ := by
        simp only [thumbStep, hp]
        rw [if_neg (by simp [hpne]),
          if_pos (show (!(t.tags.contains "delete")) = true by
            rw [hdel]; rfl)]
        rfl
      simp only [List.foldl_cons, hstep]
      obtain ⟨Bs, hbnd, hlen, hC, hent, hti⟩ :=
        ih ⟨st.bindings ++ [mkThumbBinding cfg env inst base rne t p],
            st.entries ++ [Entry.thumbSrcRef st.bindings.length],
            some (mkThumbnailItem env base rne t p)⟩
          (fun q hq => hgood q (by simp [hq]))
      refine ⟨mkThumbBinding cfg env inst base rne t p :: Bs,
        ?_, ?_, ?_, ?_, ?_⟩
      · rw [hbnd]
        simp
      · simp [hlen]
      · intro b hb
        rcases List.mem_cons.mp hb with hb | hb
        · subst hb
          refine ⟨rfl, create_src_component cfg env inst t
            (mkThumbnailItem env base rne t p) unmanaged_location_name,
            rfl, ?_, create_src_no_review cfg env inst t _
              unmanaged_location_name⟩
          rw [create_src_compName]
          rfl
        · exact hC b hb
      · rw [hent]
        show (st.entries ++ [Entry.thumbSrcRef st.bindings.length]) ++
            refsFrom (st.bindings ++
              [mkThumbBinding cfg env inst base rne t p]).length
              ts.length =
          st.entries ++ refsFrom st.bindings.length (t :: ts).length
        rw [show (st.bindings ++
            [mkThumbBinding cfg env inst base rne t p]).length =
          st.bindings.length + 1 from by simp]
        rw [List.append_assoc]
        rfl
      · rcases hti with hti | hti
        · right
          refine ⟨mkThumbnailItem env base rne t p, ?_, rfl⟩
          rw [hti]
        · right
          exact hti

/-- One review iteration over bindings all satisfying `C1B` keeps the
invariant (and the binding count) and appends exactly one `thumbnail_src`
entry (by value), with non-review metadata. -/
theorem c1_step (cfg : PluginSettings) (env : Env) (inst : PublishInstance)
    (base : ComponentItem) (hm mr ms : Bool)
    (horig : cfg.upload_reviewable_with_origin_name = false)
    (st : ReviewState) (k : Nat) (repre : Repre)
    (hne : st.bindings ≠ []) (hB : ∀ b ∈ st.bindings, C1B b)
    (hskip : (!(is_repre_video env repre) && hm) = false) :
    ((reviewStep cfg env inst base hm mr ms st (k, repre)).bindings.length
        = st.bindings.length ∧
      ∀ b ∈ (reviewStep cfg env inst base hm mr ms st (k, repre)).bindings,
        C1B b) ∧
    ∃ extra,
      (reviewStep cfg env inst base hm mr ms st (k, repre)).entries =
        st.entries ++ extra ∧
      (∀ B, tsCount B extra = 1) ∧
      (∀ B en, en ∈ extra → tsOk B en) := by
  rw [reviewStep_go cfg env inst base hm mr ms st (k, repre) hskip,
    reviewStepCore_bindings, reviewStepCore_entries]
  obtain ⟨i, hmidx, hilt⟩ :=
    matchingThumbnailIdx_lt (k, repre).2 st.bindings ms hne
  rw [hmidx]
  have hren : (reviewRename mr (make_extended_component_name cfg base
        (k, repre).2 k) (some i) st.bindings base).1.length =
        st.bindings.length ∧
      ∀ b ∈ (reviewRename mr (make_extended_component_name cfg base
        (k, repre).2 k) (some i) st.bindings base).1, C1B b := by
    unfold reviewRename
    by_cases hre : (mr && optStrTruthy (make_extended_component_name cfg
        base (k, repre).2 k)) = true
    · rw [if_pos hre]
      exact ⟨modifyAt_length st.bindings i _,
        modifyAt_forall C1B st.bindings i _ hB
          (fun b hb => C1B_rename b _ hb)⟩
    · rw [if_neg hre]
      exact ⟨rfl, hB⟩
  obtain ⟨hlen, hB2⟩ := hren
  have hilt2 : i < (reviewRename mr (make_extended_component_name cfg base
      (k, repre).2 k) (some i) st.bindings base).1.length := by
    rw [hlen]
    exact hilt
  obtain ⟨b2, hgb⟩ : ∃ b2, (reviewRename mr
      (make_extended_component_name cfg base (k, repre).2 k) (some i)
      st.bindings base).1[i]? = some b2 :=
    ⟨_, List.getElem?_eq_getElem hilt2⟩
  obtain ⟨hitemName, s2, hs2, hs2n, hs2p⟩ := hB2 b2 (List.getElem?_mem hgb)
  have hTC : thumbCopyEntries (some i) (reviewRename mr
      (make_extended_component_name cfg base (k, repre).2 k) (some i)
      st.bindings base).1 = [Entry.val b2.item, Entry.val s2] := by
    simp [thumbCopyEntries, hgb, hs2]
  rw [hTC]
  refine ⟨⟨hlen, hB2⟩, [Entry.val b2.item, Entry.val s2] ++
      reviewTailEntries cfg env inst (k, repre).2
        (buildReviewItem cfg env inst (k, repre).2
          (reviewRename mr (make_extended_component_name cfg base
            (k, repre).2 k) (some i) st.bindings base).2),
    by rw [List.append_assoc], ?_, ?_⟩
  · intro B
    rw [tsCount_append]
    have h1 : tsCount B [Entry.val b2.item, Entry.val s2] = 1 := by
      rw [show [Entry.val b2.item, Entry.val s2] =
        [Entry.val b2.item] ++ [Entry.val s2] from rfl, tsCount_append,
        tsCount_val, tsCount_val, if_neg (by rw [hitemName]; decide),
        if_pos hs2n]
    have h2 : tsCount B (reviewTailEntries cfg env inst (k, repre).2
        (buildReviewItem cfg env inst (k, repre).2
          (reviewRename mr (make_extended_component_name cfg base
            (k, repre).2 k) (some i) st.bindings base).2)) = 0 := by
      unfold tsCount
      rw [List.length_eq_zero]
      rw [List.filter_eq_nil_iff]
      intro en hen
      rcases reviewTail_compName_noorig cfg env inst (k, repre).2 _ horig
        en hen with ⟨c, hc, hcn, -⟩ | hc
      · subst hc
        simp only [resolveEntry]
        rcases hcn with hcn | hcn <;>
          rw [hcn, buildReviewItem_compName] <;>
          cases hvid : is_repre_video env (k, repre).2 <;> simp [hvid]
      · subst hc
        simp only [resolveEntry]
        rw [buildReviewItem_compName]
        cases hvid : is_repre_video env (k, repre).2 <;> simp [hvid]
    rw [h1, h2]
  · intro B en hen
    rw [List.mem_append] at hen
    rcases hen with hen | hen
    · simp only [List.mem_cons, List.not_mem_nil, or_false,
        List.mem_singleton] at hen
      rcases hen with hen | hen
      · subst hen
        intro hname
        rw [resolveEntry] at hname
        rw [hitemName] at hname
        exact absurd hname (by decide)
      · subst hen
        intro _
        simpa [resolveEntry] using hs2p
    · rcases reviewTail_compName_noorig cfg env inst (k, repre).2 _ horig
        en hen with ⟨c, hc, hcn, hcp⟩ | hc
      · subst hc
        intro _
        simpa [resolveEntry] using hcp
      · subst hc
        intro hname
        rw [resolveEntry, buildReviewItem_compName] at hname
        revert hname
        cases hvid : is_repre_video env (k, repre).2 <;> simp [hvid]

/-- The review fold over bindings all satisfying `C1B`: the invariant and
binding count survive and exactly one `thumbnail_src` entry is appended
per iteration, each with non-review metadata. -/
theorem c1_fold (cfg : PluginSettings) (env : Env) (inst : PublishInstance)
    (base : ComponentItem) (hm mr ms : Bool)
    (horig : cfg.upload_reviewable_with_origin_name = false) :
    ∀ (irs : List (Nat × Repre)) (st : ReviewState),
      st.bindings ≠ [] → (∀ b ∈ st.bindings, C1B b) →
      (∀ pr ∈ irs, (!(is_repre_video env pr.2) && hm) = false) →
      ((irs.foldl (reviewStep cfg env inst base hm mr ms)
          st).bindings.length = st.bindings.length ∧
        ∀ b ∈ (irs.foldl (reviewStep cfg env inst base hm mr ms)
          st).bindings, C1B b) ∧
      ∃ extra,
        (irs.foldl (reviewStep cfg env inst base hm mr ms) st).entries =
          st.entries ++ extra ∧
        (∀ B, tsCount B extra = irs.length) ∧
        (∀ B en, en ∈ extra → tsOk B en) := by
  intro irs
  induction irs with
  | nil =>
    intro st _ hB _
    exact ⟨⟨rfl, hB⟩, [], by simp, fun B => rfl,
      fun B en hen => absurd hen (by simp)⟩
  | cons pr rest ih =>
    intro st hne hB hl
    simp only [List.foldl_cons]
    obtain ⟨⟨hlen1, hB1⟩, extra1, hent1, hcnt1, hok1⟩ :=
      c1_step cfg env inst base hm mr ms horig st pr.1 pr.2 hne hB
        (hl pr (by simp))
    rw [show (pr.1, pr.2) = pr from rfl] at hlen1 hB1 hent1
    have hne1 : (reviewStep cfg env inst base hm mr ms st pr).bindings
        ≠ [] := by
      intro h0
      rw [h0] at hlen1
      exact hne (List.length_eq_zero.mp hlen1.symm)
    obtain ⟨⟨hlen2, hB2⟩, extra2, hent2, hcnt2, hok2⟩ :=
      ih (reviewStep cfg env inst base hm mr ms st pr) hne1 hB1
        (fun q hq => hl q (by simp [hq]))
    refine ⟨⟨?_, hB2⟩, extra1 ++ extra2, ?_, ?_, ?_⟩
    · rw [hlen2, hlen1]
    · rw [hent2, hent1, List.append_assoc]
    · intro B
      rw [tsCount_append, hcnt1 B, hcnt2 B]
      simp [Nat.add_comm]
    · intro B en hen
      rw [List.mem_append] at hen
      rcases hen with hen | hen
      · exact hok1 B en hen
      · exact hok2 B en hen

/-- The other-representation loop adds no entry carrying the given name
(provided no other representation is literally named so) and keeps the
metadata property. -/
theorem othersFold_c1 (cfg : PluginSettings) (env : Env)
    (inst : PublishInstance) (base : ComponentItem) (mrev : Bool)
    (extOpt : Option String) (B : List ThumbBinding) (nm : String) :
    ∀ (rs : List Repre) (entries : List Entry),
      (∀ r ∈ rs, (r.name == nm) = false) →
      cnt B nm (rs.foldl (otherStep cfg env inst base mrev extOpt) entries)
        = cnt B nm entries ∧
      ((∀ en ∈ entries, entOk B nm en) →
        ∀ en ∈ rs.foldl (otherStep cfg env inst base mrev extOpt) entries,
          entOk B nm en) := by
  intro rs
  induction rs with
  | nil => intro entries _; exact ⟨rfl, fun h => h⟩
  | cons x xs ih =>
    intro entries hname
    simp only [List.foldl_cons]
    have hstep : cnt B nm (otherStep cfg env inst base mrev extOpt
        entries x) = cnt B nm entries ∧
        ((∀ en ∈ entries, entOk B nm en) →
          ∀ en ∈ otherStep cfg env inst base mrev extOpt entries x,
            entOk B nm en) := by
      rcases otherStep_cases cfg env inst base mrev extOpt entries x with
        hc | ⟨item, p, hc, -, -, -, hcn⟩
      · rw [hc]; exact ⟨rfl, fun h => h⟩
      · rw [hc]
        have hnx : ¬ compName item = nm := by
          intro hx
          have hxeq : x.name = nm := hcn.symm.trans hx
          have hfalse := hname x (by simp)
          rw [hxeq] at hfalse
          simp at hfalse
        constructor
        · rw [cnt_append, cnt_val, if_neg hnx]
          exact Nat.add_zero _
        · intro h en hen
          rw [List.mem_append] at hen
          rcases hen with hen | hen
          · exact h en hen
          · simp only [List.mem_singleton] at hen
            subst hen
            intro hx
            exact absurd hx (by simpa [resolveEntry] using hnx)
    obtain ⟨ihc, iho⟩ := ih (otherStep cfg env inst base mrev extOpt
      entries x) (fun r hr => hname r (by simp [hr]))
    exact ⟨ihc.trans hstep.1, fun h => iho (hstep.2 h)⟩

/-- C1, amended: for an instance whose classified thumbnails are nonempty
and all survive (no `delete` tag, resolvable non-empty path), with
origin-name uploads off and no other representation literally named
`thumbnail_src` or `ftrackreview-image_src`, the assembled list contains
`(number of thumbnails) + (number of surviving reviews)` thumbnail-derived
`_src` shadows rather than one per thumbnail: the thumbnail loop appends
one per thumbnail and the review loop appends one more copy of its matched
thumbnail's shadow per surviving review.  With review representations
present the shadows are named `thumbnail_src`; with none they are named
`ftrackreview-image_src` and number exactly one per thumbnail, as
originally claimed.  Every such shadow carries non-review metadata with no
frameIn/frameOut payload. -/
theorem claim1_amended (cfg : PluginSettings) (env : Env)
    (inst : PublishInstance) (reps : List Repre) (v : Int)
    (l : List ComponentItem)
    (hreps : inst.representations = some reps)
    (hv : inst.version = some v)
    (hts : (classify env reps).thumbnails ≠ [])
    (hgood : ∀ t ∈ (classify env reps).thumbnails,
      t.path.getD "" ≠ "" ∧ t.tags.contains "delete" = false)
    (horig : cfg.upload_reviewable_with_origin_name = false)
    (hoth : ∀ r ∈ (classify env reps).others,
      (r.name == "thumbnail_src") = false ∧
      (r.name == "ftrackreview-image_src") = false)
    (hl : process cfg env inst = .ok l) :
    countByName l (if (classify env reps).reviews.isEmpty
        then "ftrackreview-image_src" else "thumbnail_src") =
      (classify env reps).thumbnails.length +
        (filteredReviews env reps).length ∧
    ∀ c ∈ l, compName c = (if (classify env reps).reviews.isEmpty
        then "ftrackreview-image_src" else "thumbnail_src") →
      hasReviewPayload c = false := by
  unfold process at hl
  rw [hreps] at hl
  cases reps with
  | nil => exact absurd rfl hts
  | cons r rs =>
    rw [hv] at hl
    injection hl with hl
    subst hl
    have hfd : filteredReviews env (r :: rs) =
        (classify env (r :: rs)).reviews.filter
          (fun q => !(classify env (r :: rs)).hasMovieReview ||
            is_repre_video env q) := rfl
    unfold assemble assembleParts
    simp only [List.mem_map]
    generalize hBase : mkBaseComponentItem cfg env inst v = base
    generalize hCls : classify env (r :: rs) = cls at hts hgood hoth hfd ⊢
    generalize hRevs : filteredReviews env (r :: rs) = revs at hfd ⊢
    cases hrev : cls.reviews.isEmpty with
    | true =>
      simp only [hrev, Bool.not_true]
      simp only [if_true]
      have hrnil : cls.reviews = [] := by
        cases hc : cls.reviews with
        | nil => rfl
        | cons a as => rw [hc] at hrev; simp at hrev
      have hrevnil : revs = [] := by rw [hfd, hrnil]; rfl
      generalize hTP : thumbnailPhase cfg env inst base false cls.thumbnails
        = tp
      obtain ⟨Bs, hbnd, hlenBs, hCg, hent, hti⟩ :=
        thumbFold_c1 cfg env inst base false cls.thumbnails ⟨[], [], none⟩
          hgood
      have htp' : cls.thumbnails.foldl (thumbStep cfg env inst base false)
          ⟨[], [], none⟩ = tp := hTP
      rw [htp'] at hbnd hent hti
      have htpb : tp.bindings = Bs := by simpa using hbnd
      have htpe : tp.entries = refsFrom 0 cls.thumbnails.length := by
        simpa using hent
      generalize hRST : (withIdx 0 revs).foldl
        (reviewStep cfg env inst base cls.hasMovieReview
          (decide (revs.length > 1))
          (decide ((synced_output_names cls.reviews
            cls.thumbnails).length > 1)))
        ⟨tp.bindings, tp.entries, none⟩ = rst
      have hrstEq : rst = ⟨tp.bindings, tp.entries, none⟩ := by
        rw [hrevnil] at hRST
        exact hRST.symm
      have hrstb : rst.bindings = tp.bindings := by rw [hrstEq]
      have hrste : rst.entries = tp.entries := by rw [hrstEq]
      have hrstx : rst.extended = none := by rw [hrstEq]
      rw [hrstb, hrste, hrstx, hrevnil]
      have hsrcB : ∀ b ∈ tp.bindings, ∃ s, b.src_component = some s ∧
          compName s = "ftrackreview-image_src" ∧
          hasReviewPayload s = false := by
        intro b hb
        rw [htpb] at hb
        obtain ⟨-, s, hs, hsn, hsp⟩ := hCg b hb
        exact ⟨s, hs, by rw [hsn]; rfl, hsp⟩
      obtain ⟨hrefc, hrefok⟩ := cnt_refsFrom tp.bindings
        "ftrackreview-image_src" hsrcB cls.thumbnails.length 0
        (by rw [htpb]; omega)
      have hfb : cnt tp.bindings "ftrackreview-image_src"
            (if ([] : List Repre).isEmpty then
              match tp.thumbnail_item with
              | some t => [Entry.val t]
              | none => []
            else []) = 0 ∧
          ∀ en ∈ (if ([] : List Repre).isEmpty then
              match tp.thumbnail_item with
              | some t => [Entry.val t]
              | none => []
            else []), entOk tp.bindings "ftrackreview-image_src" en := by
        constructor
        · split
          · rcases hti with htiN | ⟨it, hsome, hname⟩
            · have hnone : tp.thumbnail_item = none := htiN
              rw [hnone]
              rfl
            · rw [hsome]
              show cnt tp.bindings "ftrackreview-image_src"
                [Entry.val it] = 0
              rw [cnt_val, if_neg (by rw [hname]; decide)]
          · rfl
        · intro en hen
          split at hen
          · rcases hti with htiN | ⟨it, hsome, hname⟩
            · have hnone : tp.thumbnail_item = none := htiN
              rw [hnone] at hen
              exact absurd hen (by simp)
            · rw [hsome] at hen
              simp only [List.mem_singleton] at hen
              subst hen
              intro hx
              simp only [resolveEntry] at hx
              rw [hname] at hx
              exact absurd hx (by decide)
          · exact absurd hen (by simp)
      constructor
      · rw [countByName_eq_cnt]
        obtain ⟨hocnt, -⟩ := othersFold_c1 cfg env inst base
          (decide (List.length ([] : List Repre) > 1)) none tp.bindings
          "ftrackreview-image_src" cls.others
          (tp.entries ++ (if ([] : List Repre).isEmpty then
            match tp.thumbnail_item with
            | some t => [Entry.val t]
            | none => []
          else []))
          (fun q hq => (hoth q hq).2)
        refine hocnt.trans ?_
        rw [cnt_append, htpe, hrefc, hfb.1]
        simp
      · intro c hc
        obtain ⟨e, he, hce⟩ := hc
        rw [← hce]
        obtain ⟨-, hook⟩ := othersFold_c1 cfg env inst base
          (decide (List.length ([] : List Repre) > 1)) none tp.bindings
          "ftrackreview-image_src" cls.others
          (tp.entries ++ (if ([] : List Repre).isEmpty then
            match tp.thumbnail_item with
            | some t => [Entry.val t]
            | none => []
          else []))
          (fun q hq => (hoth q hq).2)
        refine hook ?_ e he
        intro en hen
        rw [List.mem_append] at hen
        rcases hen with hen | hen
        · rw [htpe] at hen
          exact hrefok en hen
        · exact hfb.2 en hen
    | false =>
      simp only [hrev, Bool.not_false, Bool.false_eq_true, if_false]
      generalize hTP : thumbnailPhase cfg env inst base true cls.thumbnails
        = tp
      obtain ⟨Bs, hbnd, hlenBs, hCg, hent, hti⟩ :=
        thumbFold_c1 cfg env inst base true cls.thumbnails ⟨[], [], none⟩
          hgood
      have htp' : cls.thumbnails.foldl (thumbStep cfg env inst base true)
          ⟨[], [], none⟩ = tp := hTP
      rw [htp'] at hbnd hent hti
      have htpb : tp.bindings = Bs := by simpa using hbnd
      have htpe : tp.entries = refsFrom 0 cls.thumbnails.length := by
        simpa using hent
      have htpne : tp.bindings ≠ [] := by
        rw [htpb]
        intro h0
        rw [h0] at hlenBs
        exact hts (List.length_eq_zero.mp hlenBs.symm)
      have htpC : ∀ b ∈ tp.bindings, C1B b := by
        intro b hb
        rw [htpb] at hb
        exact C1Bg_true b (hCg b hb)
      have hskips : ∀ pr ∈ withIdx 0 revs,
          (!(is_repre_video env pr.2) && cls.hasMovieReview) = false := by
        intro pr hpr
        have hmem : pr.2 ∈ revs := withIdx_mem revs 0 pr hpr
        rw [hfd] at hmem
        have hpred := (List.mem_filter.mp hmem).2
        cases hmv : cls.hasMovieReview with
        | false => simp
        | true =>
          rw [hmv] at hpred
          simp only [Bool.not_true, Bool.false_or] at hpred
          simp [hpred]
      obtain ⟨⟨hrlen, hrB⟩, extra, hrent, hrcnt, hrok⟩ :=
        c1_fold cfg env inst base cls.hasMovieReview
          (decide (revs.length > 1))
          (decide ((synced_output_names cls.reviews
            cls.thumbnails).length > 1))
          horig (withIdx 0 revs) ⟨tp.bindings, tp.entries, none⟩
          htpne htpC hskips
      generalize hRST : (withIdx 0 revs).foldl
        (reviewStep cfg env inst base cls.hasMovieReview
          (decide (revs.length > 1))
          (decide ((synced_output_names cls.reviews
            cls.thumbnails).length > 1)))
        ⟨tp.bindings, tp.entries, none⟩ = rst at hrlen hrB hrent ⊢
      have hre2 : rst.entries = refsFrom 0 cls.thumbnails.length ++
          extra := by
        rw [hrent]
        exact congrArg (fun x => x ++ extra) htpe
      have hrlen2 : rst.bindings.length = cls.thumbnails.length := by
        rw [hrlen]
        show tp.bindings.length = cls.thumbnails.length
        rw [htpb]
        exact hlenBs
      have hsrcB : ∀ b ∈ rst.bindings, ∃ s, b.src_component = some s ∧
          compName s = "thumbnail_src" ∧ hasReviewPayload s = false :=
        fun b hb => (hrB b hb).2
      obtain ⟨hrefc, hrefok⟩ := cnt_refsFrom rst.bindings "thumbnail_src"
        hsrcB cls.thumbnails.length 0 (by omega)
      have hextc : cnt rst.bindings "thumbnail_src" extra = revs.length := by
        have h := hrcnt rst.bindings
        rw [tsCount_eq_cnt] at h
        rw [h, withIdx_length]
      have hfb : cnt rst.bindings "thumbnail_src"
            (if revs.isEmpty then
              match tp.thumbnail_item with
              | some t => [Entry.val t]
              | none => []
            else []) = 0 ∧
          ∀ en ∈ (if revs.isEmpty then
              match tp.thumbnail_item with
              | some t => [Entry.val t]
              | none => []
            else []), entOk rst.bindings "thumbnail_src" en := by
        constructor
        · split
          · rcases hti with htiN | ⟨it, hsome, hname⟩
            · have hnone : tp.thumbnail_item = none := htiN
              rw [hnone]
              rfl
            · rw [hsome]
              show cnt rst.bindings "thumbnail_src" [Entry.val it] = 0
              rw [cnt_val, if_neg (by rw [hname]; decide)]
          · rfl
        · intro en hen
          split at hen
          · rcases hti with htiN | ⟨it, hsome, hname⟩
            · have hnone : tp.thumbnail_item = none := htiN
              rw [hnone] at hen
              exact absurd hen (by simp)
            · rw [hsome] at hen
              simp only [List.mem_singleton] at hen
              subst hen
              intro hx
              simp only [resolveEntry] at hx
              rw [hname] at hx
              exact absurd hx (by decide)
          · exact absurd hen (by simp)
      constructor
      · rw [countByName_eq_cnt]
        obtain ⟨hocnt, -⟩ := othersFold_c1 cfg env inst base
          (decide (revs.length > 1)) rst.extended rst.bindings
          "thumbnail_src" cls.others
          (rst.entries ++ (if revs.isEmpty then
            match tp.thumbnail_item with
            | some t => [Entry.val t]
            | none => []
          else []))
          (fun q hq => (hoth q hq).1)
        refine hocnt.trans ?_
        rw [cnt_append, hre2, cnt_append, hrefc, hextc, hfb.1]
        omega
      · intro c hc
        obtain ⟨e, he, hce⟩ := hc
        rw [← hce]
        obtain ⟨-, hook⟩ := othersFold_c1 cfg env inst base
          (decide (revs.length > 1)) rst.extended rst.bindings
          "thumbnail_src" cls.others
          (rst.entries ++ (if revs.isEmpty then
            match tp.thumbnail_item with
            | some t => [Entry.val t]
            | none => []
          else []))
          (fun q hq => (hoth q hq).1)
        refine hook ?_ e he
        intro en hen
        rw [List.mem_append] at hen
        rcases hen with hen | hen
        · rw [hre2] at hen
          rw [List.mem_append] at hen
          rcases hen with hen | hen
          · exact hrefok en hen
          · exact hrok rst.bindings en hen
        · exact hfb.2 en hen

theorem claim1_witness :
    countByName (okList (process cfgNoKeep envProbeFail instAliasing))
        (if (classify envProbeFail
            [thumbSolo, reviewAliasA, reviewAliasB]).reviews.isEmpty
          then "ftrackreview-image_src" else "thumbnail_src") =
      (classify envProbeFail
        [thumbSolo, reviewAliasA, reviewAliasB]).thumbnails.length +
        (filteredReviews envProbeFail
          [thumbSolo, reviewAliasA, reviewAliasB]).length ∧
    ∀ c ∈ okList (process cfgNoKeep envProbeFail instAliasing),
      compName c = (if (classify envProbeFail
            [thumbSolo, reviewAliasA, reviewAliasB]).reviews.isEmpty
          then "ftrackreview-image_src" else "thumbnail_src") →
        hasReviewPayload c = false :=
  claim1_amended cfgNoKeep envProbeFail instAliasing
    [thumbSolo, reviewAliasA, reviewAliasB] 1
    (okList (process cfgNoKeep envProbeFail instAliasing))
    rfl rfl (by decide) (by decide) rfl (by decide) (by rfl)

end AyonFtrack
